import Mathlib

/-!
# SLPool: a block-granular free-list storage pool

A shallow embedding of `include/SLPool.hpp` (class `mp::SLPool<BLK_SIZE>`), with the
constructor, `Allocate` and `Free` translated statement by statement.

Conventions of the embedding.

* The target is an LP64 platform: `size_t`, `long int` and pointers are 64 bits wide,
  `unsigned int` is 32 bits wide.
* A `Block *` is either `nullptr` or the address of `m_pool[i]`; it is represented by the
  index `i`.  The arena is not bounds-checked: `m_pool` is a total map from indices to
  blocks, and indices `>= m_n_blocks` stand for the memory that follows the arena.
* A `void *` handed to the client is a byte offset from the start of the arena.
* A block is the pair of words the allocator reads and writes: `m_length` and the first
  word of the union (`m_next`).  The remaining `BLK_SZ - 16` raw bytes of a block are never
  touched by the pool and are left out.
* The loop of `Allocate` may not terminate on a cyclic list: it takes a fuel argument
  and `Allocate` returns `none` when the fuel runs out.  A null dereference in the split
  branch of `Allocate` is the outcome `AllocResult.undefined`.  `Free` returns `none`
  where the source has undefined behaviour (a misaligned argument, a null dereference).
* The member `m_sentinel` is a reference the constructor binds to `m_pool[m_n_blocks - 1]`;
  no member function rebinds it or writes `m_n_blocks`.
* The template argument `BLK_SIZE` is at least 9 in every instantiation that compiles
  (`m_raw` has `BLK_SIZE - sizeof(Header)` elements); the tests use 24, the default is 16.
-/

namespace mp

/-! ## Sizes -/

/-- Value of `sizeof(Header)`: one `size_t`. -/
def HEADER_SZ : Nat := 8

/-- Value of `sizeof(Block)` for the template argument `BLK_SIZE`: the header followed by
the union of a pointer and `char m_raw[BLK_SIZE - sizeof(Header)]`, padded to the
alignment of `size_t`. -/
def BLK_SZ (BLK_SIZE : Nat) : Nat :=
  HEADER_SZ + max 8 (8 * ((BLK_SIZE - HEADER_SZ + 7) / 8))

/-- Number of values of a `size_t`. -/
def SIZE_MOD : Nat := 2 ^ 64

/-- Number of values of an `unsigned int`. -/
def UINT_MOD : Nat := 2 ^ 32

/-- Rounding of `n` to a multiple of `2 ^ e`, to nearest, ties to the even multiple. -/
def roundToBits (e n : Nat) : Nat :=
  let m := n / 2 ^ e
  let r := n % 2 ^ e
  let half := 2 ^ e / 2
  if half < r ∨ (r = half ∧ m % 2 = 1) then (m + 1) * 2 ^ e else m * 2 ^ e

/-- Result of `std::ceil` on an integer argument, as an integer: the argument is
converted to `double` (53 bits of significand, round to nearest even) and the ceiling
of an integral `double` is that `double`. -/
def stdCeil (n : Nat) : Nat :=
  if n < 2 ^ 53 then n else roundToBits (Nat.log2 n - 52) n

/-- The cast `(long int) n` of a `size_t`. -/
def toLong (n : Nat) : Int :=
  if n % SIZE_MOD < 2 ^ 63 then ((n % SIZE_MOD : Nat) : Int) else ((n % SIZE_MOD : Nat) : Int) - 2 ^ 64

/-! ## Data model -/

/-- A value of type `Block *`. -/
inductive Ptr where
  | null : Ptr
  | blk (i : Nat) : Ptr
  deriving DecidableEq, Repr

/-- The two words of `struct Block` the pool works on: `Header::m_length` and the
`m_next` member of the union.  While a block is the head of a reserved area, `m_next`
is the first word of the client data. -/
structure Block where
  m_length : Nat
  m_next : Ptr
  deriving DecidableEq, Repr

/-- The state of an `SLPool` object.  `m_sentinel` is the index of the block the
reference member `m_sentinel` is bound to. -/
structure SLPool where
  m_n_blocks : Nat
  m_pool : Nat → Block
  m_sentinel : Nat

/-- The block written by `Block()`: `m_length(0)`, `m_next(nullptr)`. -/
def Block.default : Block := ⟨0, Ptr.null⟩

/-- Assignment `m_pool[i].m_length = v`. -/
def SLPool.setLength (s : SLPool) (i v : Nat) : SLPool :=
  { s with m_pool := fun j => if j = i then { s.m_pool i with m_length := v } else s.m_pool j }

/-- Assignment `m_pool[i].m_next = p`. -/
def SLPool.setNext (s : SLPool) (i : Nat) (p : Ptr) : SLPool :=
  { s with m_pool := fun j => if j = i then { s.m_pool i with m_next := p } else s.m_pool j }

/-- Read of `m_pool[i].m_length`. -/
def SLPool.len (s : SLPool) (i : Nat) : Nat := (s.m_pool i).m_length

/-- Read of `m_pool[i].m_next`. -/
def SLPool.next (s : SLPool) (i : Nat) : Ptr := (s.m_pool i).m_next

/-- The pointer difference `a - b` of two `Block *`, in blocks.  It is a block count of
this arena only when both operands point into the block grid. -/
def ptrdiff : Ptr → Ptr → Option Int
  | Ptr.blk a, Ptr.blk b => some ((a : Int) - (b : Int))
  | _, _ => none

/-- The test `(a - b) == (long int) n`.  With a null operand the difference is not the
distance of two blocks and the test fails. -/
def ptrdiffEq (a b : Ptr) (n : Nat) : Bool :=
  ptrdiff a b == some (toLong n)

/-- Dereference of a `Block *`: the index of the block, undefined for `nullptr`. -/
def Ptr.deref : Ptr → Option Nat
  | Ptr.null => none
  | Ptr.blk i => some i

/-! ## Constructor -/

/-- The member initialiser
`m_n_blocks{(unsigned int)std::ceil((bytes + sizeof(Header)) / BLK_SIZE) + 1u}`.
The division is the integer division of `size_t`; the cast to `unsigned int` is defined
only for values below `2 ^ 32`. -/
def ctorBlocks (BLK_SIZE bytes : Nat) : Option Nat :=
  let q := stdCeil ((bytes + HEADER_SZ) % SIZE_MOD / BLK_SIZE)
  if q < UINT_MOD then some ((q + 1) % UINT_MOD) else none

/-- The body of the constructor for a block count `n`: `new Block[n]` default-constructs
every block, `m_sentinel` is bound to `m_pool[n - 1]`, then
`m_pool[0].m_length = n - 1; m_pool[0].m_next = nullptr;`
`m_sentinel.m_next = m_pool; m_sentinel.m_length = 0;`. -/
def SLPool.init (n : Nat) : SLPool :=
  let s0 : SLPool := ⟨n, fun _ => Block.default, n - 1⟩
  let s1 := s0.setLength 0 (n - 1)
  let s2 := s1.setNext 0 Ptr.null
  let s3 := s2.setNext s2.m_sentinel (Ptr.blk 0)
  s3.setLength s3.m_sentinel 0

/-- The constructor `SLPool(size_t bytes)`.  The sentinel `m_pool[m_n_blocks - 1]` does
not exist when the block count wrapped to `0`. -/
def SLPool.ctor (BLK_SIZE bytes : Nat) : Option SLPool :=
  match ctorBlocks BLK_SIZE bytes with
  | none => none
  | some n => if n = 0 then none else some (SLPool.init n)

/-! ## Allocate -/

/-- Outcome of a call of `Allocate`: it returned an address, it threw `std::bad_alloc`,
or it dereferenced a null pointer, which is undefined behaviour. -/
inductive AllocResult where
  | address (p : Nat) (s : SLPool) : AllocResult
  | bad_alloc (s : SLPool) : AllocResult
  | undefined : AllocResult

/-- The local `size_t blocks = std::ceil((bytes + HEADER_SZ) / BLK_SZ)`. -/
def allocBlocks (BLK_SIZE bytes : Nat) : Nat :=
  stdCeil ((bytes + HEADER_SZ) % SIZE_MOD / BLK_SZ BLK_SIZE)

/-- The byte offset of `reinterpret_cast<Header *>(fast) + 1U` for `fast = &m_pool[i]`. -/
def payloadAddr (BLK_SIZE i : Nat) : Nat := i * BLK_SZ BLK_SIZE + HEADER_SZ

/-- The four statements of the split branch of `Allocate`, for `slow`, `fast` and
`blocks`.  Each statement reads `slow->m_next` anew: the second statement writes the
`m_next` of that block, so when `slow` is the block `fast + blocks` itself the third
statement finds there the old `fast->m_next` and not `fast + blocks`.  `none` is
undefined behaviour: the pointer read from `slow->m_next` is null. -/
def allocSplit (s : SLPool) (slow fast blocks : Nat) : Option SLPool :=
  -- slow->m_next = fast + blocks;
  let s1 := s.setNext slow (Ptr.blk (fast + blocks))
  -- slow->m_next->m_next = fast->m_next;
  match (s1.next slow).deref with
  | none => none
  | some r1 =>
    let s2 := s1.setNext r1 (s1.next fast)
    -- slow->m_next->m_length = fast->m_length - blocks;
    match (s2.next slow).deref with
    | none => none
    | some r2 =>
      let s3 := s2.setLength r2 (s2.len fast - blocks)
      -- fast->m_length = blocks;
      some (s3.setLength fast blocks)

/-- The `while (fast != nullptr)` loop of `Allocate`, one iteration per unit of fuel;
`none` when the fuel runs out. -/
def allocLoop (BLK_SIZE blocks : Nat) : Nat → SLPool → Ptr → Nat → Option AllocResult
  | 0, _, _, _ => none
  | _ + 1, s, Ptr.null, _ => some (AllocResult.bad_alloc s)
  | fuel + 1, s, Ptr.blk fast, slow =>
    if s.len fast = blocks then
      -- slow->m_next = fast->m_next; fast->m_length = blocks;
      let s1 := s.setNext slow (s.next fast)
      let s2 := s1.setLength fast blocks
      some (AllocResult.address (payloadAddr BLK_SIZE fast) s2)
    else if blocks < s.len fast then
      match allocSplit s slow fast blocks with
      | none => some AllocResult.undefined
      | some st => some (AllocResult.address (payloadAddr BLK_SIZE fast) st)
    else
      -- slow = fast; fast = fast->m_next;
      allocLoop BLK_SIZE blocks fuel s (s.next fast) fast

/-- The member function `void *Allocate(size_t bytes)`; `none` when the fuel runs out
before the loop ends. -/
def Allocate (BLK_SIZE fuel : Nat) (s : SLPool) (bytes : Nat) : Option AllocResult :=
  allocLoop BLK_SIZE (allocBlocks BLK_SIZE bytes) fuel s (s.next s.m_sentinel) s.m_sentinel

/-! ## Free -/

/-- The cast chain `reinterpret_cast<Block *>(reinterpret_cast<Header *>(ptr) - 1U)`:
the index of the block whose header ends at byte offset `ptr`, when there is one. -/
def headOf (BLK_SIZE ptr : Nat) : Option Nat :=
  if HEADER_SZ ≤ ptr ∧ (ptr - HEADER_SZ) % BLK_SZ BLK_SIZE = 0 then
    some ((ptr - HEADER_SZ) / BLK_SZ BLK_SIZE)
  else none

/-- The search loop of `Free`; the result is the final value of `fast`.  Each advance
moves `slow` to a greater index below `current`, so `current + 2` iterations are
always enough. -/
def freeLoop (current : Nat) : Nat → SLPool → Ptr → Nat → Option Ptr
  | 0, _, _, _ => none
  | _ + 1, _, Ptr.null, _ => some Ptr.null
  | fuel + 1, s, Ptr.blk fast, slow =>
    if ((current : Int) - (fast : Int) < (current : Int) - (slow : Int)) ∧
        (0 < (current : Int) - (fast : Int)) then
      freeLoop current fuel s (s.next fast) fast
    else some (Ptr.blk fast)

/-- The tail of `Free` from `Block *pre = fast;` on: the four-way coalescing chain. -/
def freeLink (s : SLPool) (current pre : Nat) : Option SLPool :=
  let pos := s.next pre
  if ptrdiffEq (Ptr.blk current) (Ptr.blk pre) (s.len pre) && ptrdiffEq pos (Ptr.blk current) (s.len current) then
    match pos.deref with
    | none => none
    | some q =>
      -- pre->m_next = pos->m_next;
      let s1 := s.setNext pre (s.next q)
      -- pre->m_length = pre->m_length + current->m_length + pos->m_length;
      some (s1.setLength pre ((s1.len pre + s1.len current + s1.len q) % SIZE_MOD))
  else if ptrdiffEq (Ptr.blk current) (Ptr.blk pre) (s.len pre) then
    -- pre->m_next = pos; pre->m_length = pre->m_length + current->m_length;
    let s1 := s.setNext pre pos
    some (s1.setLength pre ((s1.len pre + s1.len current) % SIZE_MOD))
  else if ptrdiffEq pos (Ptr.blk current) (s.len current) then
    match pos.deref with
    | none => none
    | some q =>
      -- pre->m_next = current;
      let s1 := s.setNext pre (Ptr.blk current)
      -- current->m_next = pos->m_next;
      let s2 := s1.setNext current (s1.next q)
      -- current->m_length = current->m_length + pos->m_length;
      some (s2.setLength current ((s2.len current + s2.len q) % SIZE_MOD))
  else
    -- current->m_next = pre->m_next; pre->m_next = current;
    let s1 := s.setNext current (s.next pre)
    some (s1.setNext pre (Ptr.blk current))

/-- The member function `void Free(void *ptr)`.  `none` is undefined behaviour: `ptr` is
not the end of a block header, or `fast` is null where `fast->m_next` is read. -/
def Free (BLK_SIZE : Nat) (s : SLPool) (ptr : Nat) : Option SLPool :=
  match headOf BLK_SIZE ptr with
  | none => none
  | some current =>
    let slow := s.m_sentinel
    -- if (fast == nullptr) { slow->m_next = current; fast = current; }
    let s1 := if s.next slow = Ptr.null then s.setNext slow (Ptr.blk current) else s
    let fast := if s.next slow = Ptr.null then Ptr.blk current else s.next slow
    match freeLoop current (current + 2) s1 fast slow with
    | some (Ptr.blk pre) => freeLink s1 current pre
    | _ => none

/-! ## The free list as a list of block indices -/

/-- The indices visited by following `m_next` from `p` until `nullptr`, when that takes
fewer than `fuel` steps. -/
def freeList (s : SLPool) : Nat → Ptr → Option (List Nat)
  | 0, _ => none
  | _ + 1, Ptr.null => some []
  | fuel + 1, Ptr.blk i => (freeList s fuel (s.next i)).map (fun l => i :: l)

/-- The free-list segment from `p` to `q`: following `m_next` from `p` visits exactly
the blocks of `l`, in order, and then arrives at `q`. -/
def listSeg (s : SLPool) : Ptr → List Nat → Ptr → Prop
  | p, [], q => p = q
  | p, i :: l, q => p = Ptr.blk i ∧ listSeg s (s.next i) l q

/-! ## The coalescing table of the specification -/

/-- The table of section 4.3 of the specification, for the released head `h` and the
predecessor `pre`, with `succ = pre.next` and `m = h.length`, every right-hand side read
in the state before the call:

* left and right adjacent: `pre.length += m + succ.length; pre.next = succ.next`;
* left adjacent only: `pre.length += m`;
* right adjacent only: `h.length = m + succ.length; h.next = succ.next; pre.next = h`;
* neither: `h.next = succ; pre.next = h`.

Left adjacent is `pre + pre.length = h`; right adjacent is `h + m = succ`, false when
`succ` is the end of the list.  The sums are sums of `size_t` fields. -/
def specCoalesce (s : SLPool) (h pre : Nat) : SLPool :=
  let m := s.len h
  let succ := s.next pre
  if pre + s.len pre = h ∧ succ = Ptr.blk (h + m) then
    (s.setLength pre ((s.len pre + m + s.len (h + m)) % SIZE_MOD)).setNext pre (s.next (h + m))
  else if pre + s.len pre = h then
    s.setLength pre ((s.len pre + m) % SIZE_MOD)
  else if succ = Ptr.blk (h + m) then
    ((s.setLength h ((m + s.len (h + m)) % SIZE_MOD)).setNext h (s.next (h + m))).setNext pre
      (Ptr.blk h)
  else
    (s.setNext h succ).setNext pre (Ptr.blk h)

/-! ## Sample states -/

/-- The state of `SLPool<16>(56)` after `Allocate(24)`: block 0 is reserved with length
2, the remainder at block 2 has length 2 and is the only run on the free list. -/
def poolAfterAllocate : SLPool :=
  ((((SLPool.init 5).setNext 4 (Ptr.blk 2)).setNext 2 Ptr.null).setLength 2 2).setLength 0 2

/-- A state in which the first run of the free list, block 1, carries the length
`2 ^ 64 - 1`, which the cast to `long int` reads as `-1`; block 0 is reserved with
length 2 and the sentinel is block 2. -/
def poolHugeLength : SLPool :=
  ((SLPool.init 3).setNext 2 (Ptr.blk 1)).setLength 1 (2 ^ 64 - 1)

/-- A state of a pool of four blocks in which block 1 is reserved with the length
`2 ^ 64 - 1`, which the cast to `long int` reads as `-1`; the free list is block 2, of
length 1, then block 0, of length 1, and the sentinel is block 3. -/
def poolHugeReleased : SLPool :=
  (((((SLPool.init 4).setNext 3 (Ptr.blk 2)).setNext 2 (Ptr.blk 0)).setLength 2 1).setLength 1
    (2 ^ 64 - 1)).setLength 0 1

/-- The state of `SLPool<16>(56)` after `Allocate(24)`, `Allocate(24)`, `Free(8)`: the
second call took the run of block 2 and emptied the list, and `Free` on the empty list
linked block 0, of length 2, to itself; block 2 is reserved with length 2. -/
def poolSelfLinkedRun : SLPool :=
  ((((poolAfterAllocate.setNext 4 Ptr.null).setLength 2 2).setNext 4 (Ptr.blk 0)).setNext 0
    Ptr.null).setNext 0 (Ptr.blk 0)

/-- The state of `SLPool<16>(56)` after `Allocate(24)`, `Allocate(8)`, `Free(8)`: the
free list is block 3, of length 1, then block 0, of length 2; block 2 is reserved with
length 1. -/
def poolShortRunFirst : SLPool :=
  (((((poolAfterAllocate.setNext 4 (Ptr.blk 3)).setNext 3 Ptr.null).setLength 3 1).setLength 2
    1).setNext 0 Ptr.null).setNext 3 (Ptr.blk 0)

/-- A state in which the sentinel, block 2 of 3, is linked to itself, so that it is the
first node of its own list; block 0 is reserved with length 2. -/
def poolSentinelSelfLinked : SLPool :=
  (SLPool.init 3).setNext 2 (Ptr.blk 2)

/-! ## The tagged adapter of `mempool_common.h`

The adapter knows a pool only through the interface `StoragePool`.  The `pool` member
of the `Tag` stored at a byte address is kept in a map of its own; every call the
adapter makes on a pool or on the host is appended to a log. -/

/-- A sequence of `Allocate` calls, one per byte count of the list, each started in the
state the previous call left.  The result is the final state and, for every call that
returned an address, the address and the block count of the request, in call order;
`none` when a call runs out of fuel or has undefined behaviour. -/
def allocRuns (B fuel : Nat) : SLPool → List Nat → Option (SLPool × List (Nat × Nat))
  | s, [] => some (s, [])
  | s, b :: rest =>
    match Allocate B fuel s b with
    | none => none
    | some AllocResult.undefined => none
    | some (AllocResult.bad_alloc st) => allocRuns B fuel st rest
    | some (AllocResult.address p st) =>
      (allocRuns B fuel st rest).map (fun r => (r.1, (p, allocBlocks B b) :: r.2))

/-- The states of a pool of `n` blocks that has only allocated, with `used` blocks
handed out: the sentinel is block `n - 1`, and either `used < n - 1` and the free list
is the single run at block `used`, of length `n - 1 - used`, or `used = n - 1` and the
free list is empty. -/
def bumpState (s : SLPool) (n used : Nat) : Prop :=
  s.m_n_blocks = n ∧ s.m_sentinel = n - 1 ∧
  ((used < n - 1 ∧ s.next (n - 1) = Ptr.blk used ∧ s.len used = n - 1 - used ∧
      s.next used = Ptr.null) ∨
    (used = n - 1 ∧ s.next (n - 1) = Ptr.null))

/-! ## Well-formed free lists -/

/-- The state the split branch of `Allocate` leaves for a predecessor `pred` that is
neither `curr` nor the block `curr + k`, the fitting run `curr` and the block count `k`:
`slow->m_next = fast + blocks; slow->m_next->m_next = fast->m_next;`
`slow->m_next->m_length = fast->m_length - blocks; fast->m_length = blocks;`
with `fast->m_next` and `fast->m_length` as they were before the call. -/
def splitState (s : SLPool) (pred curr k : Nat) : SLPool :=
  (((s.setNext pred (Ptr.blk (curr + k))).setNext (curr + k) (s.next curr)).setLength
    (curr + k) (s.len curr - k)).setLength curr k

/-- A well-formed free list `l`: the walk from `m_sentinel.m_next` visits `l` and ends;
the runs are strictly address-sorted and a run ends strictly before every later run
starts, so that no two runs overlap or touch; every run has at least one block and lies
within blocks `0 .. N - 2`. -/
def wellFormed (s : SLPool) (l : List Nat) : Prop :=
  listSeg s (s.next s.m_sentinel) l Ptr.null ∧
  l.Pairwise (fun a b => a < b ∧ a + s.len a < b) ∧
  ∀ a ∈ l, 1 ≤ s.len a ∧ a + s.len a ≤ s.m_n_blocks - 1

/-- A state of a pool of three blocks whose free list is block 0, of length 0, then
block 1, of length 2, so that the run of block 1 covers the sentinel, block 2. -/
def poolRunIntoSentinel : SLPool :=
  (((SLPool.init 3).setLength 0 0).setNext 0 (Ptr.blk 1)).setLength 1 2

/-- A state of a pool of six blocks whose free list is block 0 then block 1, with the
run of block 0 three blocks long, so that it covers block 1; the sentinel is block 5. -/
def poolOverlappingRuns : SLPool :=
  (((SLPool.init 6).setLength 0 3).setNext 0 (Ptr.blk 1)).setLength 1 2

/-! ## Reads and writes of the block fields -/

/-- Read of `m_next` after a write of `m_next`. -/
@[simp] theorem setNext_next (s : SLPool) (a : Nat) (v : Ptr) (j : Nat) :
    (s.setNext a v).next j = if j = a then v else s.next j := by
  unfold SLPool.setNext SLPool.next
  by_cases h : j = a <;> simp [h]

/-- A write of `m_next` leaves every `m_length`. -/
@[simp] theorem setNext_len (s : SLPool) (a : Nat) (v : Ptr) (j : Nat) :
    (s.setNext a v).len j = s.len j := by
  unfold SLPool.setNext SLPool.len
  by_cases h : j = a <;> simp [h]

/-- Read of `m_length` after a write of `m_length`. -/
@[simp] theorem setLength_len (s : SLPool) (a v j : Nat) :
    (s.setLength a v).len j = if j = a then v else s.len j := by
  unfold SLPool.setLength SLPool.len
  by_cases h : j = a <;> simp [h]

/-- A write of `m_length` leaves every `m_next`. -/
@[simp] theorem setLength_next (s : SLPool) (a v j : Nat) :
    (s.setLength a v).next j = s.next j := by
  unfold SLPool.setLength SLPool.next
  by_cases h : j = a <;> simp [h]

/-- A write of `m_next` leaves the sentinel reference. -/
@[simp] theorem setNext_m_sentinel (s : SLPool) (a : Nat) (v : Ptr) :
    (s.setNext a v).m_sentinel = s.m_sentinel := rfl

/-- A write of `m_length` leaves the sentinel reference. -/
@[simp] theorem setLength_m_sentinel (s : SLPool) (a v : Nat) :
    (s.setLength a v).m_sentinel = s.m_sentinel := rfl

/-- Two states with the same block count, the same sentinel and the same two words in
every block are equal. -/
theorem SLPool.ext_fields {s t : SLPool} (hn : s.m_n_blocks = t.m_n_blocks)
    (hs : s.m_sentinel = t.m_sentinel) (hl : ∀ j, s.len j = t.len j)
    (hx : ∀ j, s.next j = t.next j) : s = t := by
  cases s with
  | mk n1 p1 s1 =>
    cases t with
    | mk n2 p2 s2 =>
      simp only at hn hs
      subst hn
      subst hs
      have hp : p1 = p2 := by
        funext j
        have h1 := hl j
        have h2 := hx j
        simp only [SLPool.len, SLPool.next] at h1 h2
        cases hb1 : p1 j
        cases hb2 : p2 j
        rw [hb1, hb2] at h1 h2
        simp only at h1 h2
        rw [h1, h2]
      rw [hp]

/-- Writing the length a block already has changes nothing. -/
theorem setLength_self (s : SLPool) (i v : Nat) (h : s.len i = v) : s.setLength i v = s := by
  refine SLPool.ext_fields ?_ ?_ ?_ ?_
  · rfl
  · rfl
  · intro j
    by_cases hj : j = i <;> simp [hj, h]
  · intro j
    simp

/-! ## Lemmas on the loop of `Allocate` -/

/-- The split when the third statement reads `fast + k` from `slow->m_next`: either
`slow` is not the block `fast + k`, or the second statement stored `fast + k` there
again.  All four statements write where the source text says. -/
theorem allocSplit_of_reads (s : SLPool) (slow fast k : Nat)
    (h : slow = fast + k →
      (s.setNext slow (Ptr.blk (fast + k))).next fast = Ptr.blk (fast + k)) :
    allocSplit s slow fast k =
      some ((((s.setNext slow (Ptr.blk (fast + k))).setNext (fast + k)
        ((s.setNext slow (Ptr.blk (fast + k))).next fast)).setLength (fast + k)
          (s.len fast - k)).setLength fast k) := by
  have e1 : (s.setNext slow (Ptr.blk (fast + k))).next slow = Ptr.blk (fast + k) := by
    rw [setNext_next, if_pos rfl]
  have e2 : ((s.setNext slow (Ptr.blk (fast + k))).setNext (fast + k)
      ((s.setNext slow (Ptr.blk (fast + k))).next fast)).next slow = Ptr.blk (fast + k) := by
    by_cases e : slow = fast + k
    · rw [setNext_next, if_pos e]
      exact h e
    · rw [setNext_next, if_neg e]
      exact e1
  unfold allocSplit
  simp only [e1, Ptr.deref, e2, setNext_len]

/-- The split with a predecessor other than the block `fast + k`. -/
theorem allocSplit_of_ne (s : SLPool) (slow fast k : Nat) (h : slow ≠ fast + k) :
    allocSplit s slow fast k =
      some ((((s.setNext slow (Ptr.blk (fast + k))).setNext (fast + k)
        ((s.setNext slow (Ptr.blk (fast + k))).next fast)).setLength (fast + k)
          (s.len fast - k)).setLength fast k) :=
  allocSplit_of_reads s slow fast k (fun e => absurd e h)

/-- A split that goes through leaves `k` in the length field of `fast`. -/
theorem allocSplit_len (s : SLPool) (slow fast k : Nat) (st : SLPool)
    (h : allocSplit s slow fast k = some st) : st.len fast = k := by
  unfold allocSplit at h
  dsimp only at h
  split at h
  · cases h
  · split at h
    · cases h
    · simp only [Option.some.injEq] at h
      rw [← h]
      simp

/-- A run of the loop that ends in `bad_alloc` returns the state it started from. -/
theorem allocLoop_bad_alloc_state (B k : Nat) :
    ∀ (fuel : Nat) (s : SLPool) (p : Ptr) (slow : Nat) (st : SLPool),
      allocLoop B k fuel s p slow = some (AllocResult.bad_alloc st) → st = s := by
  intro fuel
  induction fuel with
  | zero => intro s p slow st h; simp [allocLoop] at h
  | succ n ih =>
    intro s p slow st h
    cases p with
    | null =>
      simp only [allocLoop, Option.some.injEq, AllocResult.bad_alloc.injEq] at h
      exact h.symm
    | blk f =>
      simp only [allocLoop] at h
      split_ifs at h with h1 h2
      · simp at h
      · split at h <;> simp at h
      · exact ih s _ _ st h

/-- A walk that starts at a block consumes one unit of fuel and continues from its
`m_next`. -/
theorem freeList_blk {s : SLPool} {n i : Nat} {l : List Nat}
    (h : freeList s n (Ptr.blk i) = some l) :
    ∃ m t, n = m + 1 ∧ freeList s m (s.next i) = some t ∧ l = i :: t := by
  cases n with
  | zero => simp [freeList] at h
  | succ m =>
    simp only [freeList, Option.map_eq_some'] at h
    obtain ⟨t, ht, rfl⟩ := h
    exact ⟨m, t, rfl, ht, rfl⟩

/-- A walk that starts at `nullptr` visits nothing. -/
theorem freeList_null {s : SLPool} {n : Nat} {l : List Nat}
    (h : freeList s n Ptr.null = some l) : l = [] ∧ 0 < n := by
  cases n with
  | zero => simp [freeList] at h
  | succ m =>
    simp only [freeList, Option.some.injEq] at h
    exact ⟨h.symm, Nat.succ_pos m⟩

/-- On a finite list the loop ends within the fuel that walks the list: it returns an
address, throws, or dereferences null in the split. -/
theorem allocLoop_returns (B k : Nat) :
    ∀ (fuel : Nat) (s : SLPool) (p : Ptr) (slow : Nat) (l : List Nat),
      freeList s fuel p = some l → ∃ r, allocLoop B k fuel s p slow = some r := by
  intro fuel
  induction fuel with
  | zero => intro s p slow l h; simp [freeList] at h
  | succ n ih =>
    intro s p slow l h
    cases p with
    | null => exact ⟨_, rfl⟩
    | blk f =>
      obtain ⟨m, t, hm, ht, -⟩ := freeList_blk h
      have hmn : m = n := by omega
      subst hmn
      simp only [allocLoop]
      split_ifs with h1 h2
      · exact ⟨_, rfl⟩
      · split <;> exact ⟨_, rfl⟩
      · exact ih s _ f t ht

/-- Whatever the fuel, a returned outcome is `bad_alloc` exactly when every run on the
list is shorter than the request. -/
theorem allocLoop_bad_alloc_iff (B k : Nat) :
    ∀ (fuel : Nat) (s : SLPool) (p : Ptr) (slow : Nat) (r : AllocResult),
      allocLoop B k fuel s p slow = some r →
      ∀ (n : Nat) (l : List Nat), freeList s n p = some l →
        ((∃ st, r = AllocResult.bad_alloc st) ↔ ∀ i ∈ l, s.len i < k) := by
  intro fuel
  induction fuel with
  | zero => intro s p slow r h; simp [allocLoop] at h
  | succ f ih =>
    intro s p slow r h n l hl
    cases p with
    | null =>
      obtain ⟨rfl, -⟩ := freeList_null hl
      simp only [allocLoop, Option.some.injEq] at h
      subst h
      simp
    | blk i =>
      obtain ⟨m, t, -, ht, rfl⟩ := freeList_blk hl
      simp only [allocLoop] at h
      split_ifs at h with h1 h2
      · simp only [Option.some.injEq] at h
        subst h
        simp [h1]
      · have hr : ¬ ∃ st, r = AllocResult.bad_alloc st := by
          rintro ⟨st, rfl⟩
          split at h <;> simp at h
        simp only [List.mem_cons, forall_eq_or_imp]
        constructor
        · intro hst; exact absurd hst hr
        · rintro ⟨hlt, -⟩; omega
      · have := ih s _ i r h m t ht
        rw [this]
        simp only [List.mem_cons, forall_eq_or_imp]
        constructor
        · intro hall
          refine ⟨?_, hall⟩
          omega
        · exact fun hall => hall.2

/-! ## Lemmas on a freshly built pool -/

/-- The sentinel of a freshly built pool links to block 0. -/
theorem init_next_sentinel (n : Nat) :
    (SLPool.init n).next (SLPool.init n).m_sentinel = Ptr.blk 0 := by
  simp [SLPool.init, SLPool.setNext, SLPool.setLength, SLPool.next]

/-- Block 0 of a freshly built pool with at least two blocks heads a run of `n - 1`
blocks that ends the list. -/
theorem init_block_zero (n : Nat) (hn : 2 ≤ n) :
    (SLPool.init n).len 0 = n - 1 ∧ (SLPool.init n).next 0 = Ptr.null := by
  have h : ¬ (0 = n - 1) := by omega
  simp [SLPool.init, SLPool.setNext, SLPool.setLength, SLPool.next, SLPool.len, h]

/-- On a freshly built pool with at least one usable block, a request of at most
`n - 1` blocks returns the payload of block 0, and a request of exactly `n - 1` blocks
empties the free list. -/
theorem Allocate_init (B n fuel bytes : Nat) (hn : 2 ≤ n)
    (hk : allocBlocks B bytes ≤ n - 1) :
    ∃ s, Allocate B (fuel + 1) (SLPool.init n) bytes =
        some (AllocResult.address (payloadAddr B 0) s) ∧
      s.len 0 = allocBlocks B bytes ∧
      (allocBlocks B bytes = n - 1 → s.next s.m_sentinel = Ptr.null) := by
  obtain ⟨hlen, hnext⟩ := init_block_zero n hn
  have hs := init_next_sentinel n
  have hsent : (SLPool.init n).m_sentinel = n - 1 := rfl
  have hne : ¬ (n - 1 = 0) := by omega
  simp only [Allocate, hs, allocLoop, hlen]
  split_ifs with h1 h2
  · refine ⟨_, rfl, ?_, ?_⟩
    · simp [SLPool.setLength, SLPool.len]
    · intro _
      simpa [SLPool.setLength, SLPool.setNext, SLPool.next, hsent, hne] using hnext
  · have hsk : (SLPool.init n).m_sentinel ≠ 0 + allocBlocks B bytes := by
      rw [hsent]
      omega
    rw [allocSplit_of_ne _ _ _ _ hsk]
    refine ⟨_, rfl, ?_, ?_⟩
    · simp
    · intro h; omega
  · omega

/-! ## Contract of `Allocate` and `Free` -/

/-- C1 (the region handed out holds the request, `k * BLK_SZ - HEADER_SZ >= bytes`):
evaluation at a failing input.  On the pool built by `SLPool<16>(24)`, `Allocate(9)`
computes `k = (9 + 8) / 16 = 1`, returns the payload of block 0 and writes `1` into its
length field; the area then has `1 * 16 - 8 = 8` bytes, fewer than the 9 requested. -/
theorem Allocate_region_smaller_than_request :
    SLPool.ctor 16 24 = some (SLPool.init 3) ∧ allocBlocks 16 9 = 1 ∧
    ∃ s, Allocate 16 4 (SLPool.init 3) 9 = some (AllocResult.address 8 s) ∧
      s.len 0 = 1 ∧ s.len 0 * BLK_SZ 16 < 9 + HEADER_SZ := by
  refine ⟨rfl, rfl, _, rfl, rfl, ?_⟩
  decide

/-- C2 (live areas are pairwise disjoint and no live address is returned again):
evaluation at two failing inputs.  First, on `SLPool<16>(56)` two calls `Allocate(23)`
return the offsets 8 and 24, and `[8, 31)` overlaps `[24, 47)`.  Second, on
`SLPool<16>(24)` the calls `Allocate(24)`, `Free`, `Allocate(24)`, `Allocate(24)`
return offset 8 three times: the last two areas are live together. -/
theorem Allocate_returns_overlapping_areas :
    (∃ s0 s1 s2, SLPool.ctor 16 56 = some s0 ∧
      Allocate 16 4 s0 23 = some (AllocResult.address 8 s1) ∧
      Allocate 16 4 s1 23 = some (AllocResult.address 24 s2) ∧ 24 < 8 + 23) ∧
    (∃ s0 s1 s2 s3 s4, SLPool.ctor 16 24 = some s0 ∧
      Allocate 16 4 s0 24 = some (AllocResult.address 8 s1) ∧
      Free 16 s1 8 = some s2 ∧
      Allocate 16 4 s2 24 = some (AllocResult.address 8 s3) ∧
      Allocate 16 4 s3 24 = some (AllocResult.address 8 s4)) := by
  refine ⟨⟨_, _, _, rfl, rfl, rfl, by decide⟩, ⟨_, _, _, _, _, rfl, rfl, rfl, rfl, rfl⟩⟩

/-- C3 (`Allocate` throws `std::bad_alloc` exactly when no run on the free list has
length `>= k`): for a pool whose free list is finite, with nodes `l` reached within
`n` steps from `m_sentinel.m_next`, the call ends within fuel `n`; whatever the
fuel, the outcome is `bad_alloc` if and only if no node of `l` has `m_length >= k`,
with `k` the block count computed from `bytes`; on an empty free list every request
throws; and when no node of `l` has `m_length >= k` the call throws within fuel `n`. -/
theorem Allocate_bad_alloc_iff_no_fit (B : Nat) (s : SLPool) (bytes n : Nat) (l : List Nat)
    (hfin : freeList s n (s.next s.m_sentinel) = some l) :
    (∃ r, Allocate B n s bytes = some r) ∧
    (∀ fuel r, Allocate B fuel s bytes = some r →
      ((∃ st, r = AllocResult.bad_alloc st) ↔ ¬ ∃ i ∈ l, allocBlocks B bytes ≤ s.len i)) ∧
    (l = [] → Allocate B n s bytes = some (AllocResult.bad_alloc s)) ∧
    ((¬ ∃ i ∈ l, allocBlocks B bytes ≤ s.len i) →
      Allocate B n s bytes = some (AllocResult.bad_alloc s)) := by
  have hiff : ∀ fuel r, Allocate B fuel s bytes = some r →
      ((∃ st, r = AllocResult.bad_alloc st) ↔
        ¬ ∃ i ∈ l, allocBlocks B bytes ≤ s.len i) := by
    intro fuel r hr
    rw [allocLoop_bad_alloc_iff B _ fuel s _ _ r hr n l hfin]
    constructor
    · rintro hall ⟨i, hi, hle⟩
      have := hall i hi
      omega
    · intro hno i hi
      by_contra hlt
      exact hno ⟨i, hi, by omega⟩
  refine ⟨allocLoop_returns B _ n s _ _ l hfin, hiff, ?_, ?_⟩
  swap
  · intro hno
    obtain ⟨r, hr⟩ := allocLoop_returns B (allocBlocks B bytes) n s
      (s.next s.m_sentinel) s.m_sentinel l hfin
    obtain ⟨st, rfl⟩ := (hiff n r hr).mpr hno
    have hst : st = s := allocLoop_bad_alloc_state B _ n s _ _ st hr
    subst hst
    exact hr
  · intro hl
    subst hl
    cases n with
    | zero => simp [freeList] at hfin
    | succ m =>
      cases hp : s.next s.m_sentinel with
      | null => simp [Allocate, hp, allocLoop]
      | blk i =>
        rw [hp] at hfin
        obtain ⟨_, _, _, _, hnil⟩ := freeList_blk hfin
        cases hnil

/-- Witness of C3 on the pool built by `SLPool<16>(24)`: its free list is the single
run at block 0 of length 2, and a request for 40 bytes (3 blocks) throws. -/
theorem Allocate_bad_alloc_iff_no_fit_witness :
    freeList (SLPool.init 3) 2 ((SLPool.init 3).next (SLPool.init 3).m_sentinel) = some [0] ∧
    ((∃ st, AllocResult.bad_alloc (SLPool.init 3) = AllocResult.bad_alloc st) ↔
      ¬ ∃ i ∈ [0], allocBlocks 16 40 ≤ (SLPool.init 3).len i) :=
  ⟨rfl, (Allocate_bad_alloc_iff_no_fit 16 (SLPool.init 3) 40 2 [0] rfl).2.1 2 _ rfl⟩

/-- C4 (a failed `Allocate` leaves the pool unchanged): when `Allocate(bytes)` ends in
`std::bad_alloc`, the pool state is the state before the call; the length and the next
field of every block, the sentinel included, are the same. -/
theorem Allocate_bad_alloc_unchanged (B fuel : Nat) (s : SLPool) (bytes : Nat) (st : SLPool)
    (h : Allocate B fuel s bytes = some (AllocResult.bad_alloc st)) :
    st = s ∧ ∀ i, st.len i = s.len i ∧ st.next i = s.next i := by
  have hst : st = s := allocLoop_bad_alloc_state B _ fuel s _ _ st h
  subst hst
  exact ⟨rfl, fun _ => ⟨rfl, rfl⟩⟩

/-- Witness of C4: on the pool built by `SLPool<16>(24)` a request for 40 bytes throws. -/
theorem Allocate_bad_alloc_unchanged_witness :
    Allocate 16 2 (SLPool.init 3) 40 = some (AllocResult.bad_alloc (SLPool.init 3)) ∧
    (SLPool.init 3 = SLPool.init 3 ∧
      ∀ i, (SLPool.init 3).len i = (SLPool.init 3).len i ∧
        (SLPool.init 3).next i = (SLPool.init 3).next i) :=
  ⟨rfl, Allocate_bad_alloc_unchanged 16 2 (SLPool.init 3) 40 (SLPool.init 3) rfl⟩

/-- C5 (round-trip fill leaves one run of `N - 1` blocks at block 0): evaluation at two
failing inputs.  First, `SLPool<16>(40)` has `N = 4`.  `Allocate(24)` (2 blocks) returns
block 0, the next `Allocate(24)` throws, and `Free` of the one area leaves the list
`sentinel -> block 2 (length 1) -> block 0 (length 2)`: two runs, none of length 3, and
the request for the whole arena, `(N - 1) * 16 - 8` bytes, throws.  Second, on
`SLPool<16>(24)` (`N = 3`) two one-block areas fill the arena; freeing the second and
then the first leaves `m_sentinel.m_next` at block 1, of length 1, followed by block 0,
which is linked to itself. -/
theorem Free_after_fill_leaves_two_runs :
    (∃ s0 s1 s2, SLPool.ctor 16 40 = some s0 ∧ s0.m_n_blocks = 4 ∧
      Allocate 16 4 s0 24 = some (AllocResult.address 8 s1) ∧
      Allocate 16 4 s1 24 = some (AllocResult.bad_alloc s1) ∧
      Free 16 s1 8 = some s2 ∧
      freeList s2 4 (s2.next s2.m_sentinel) = some [2, 0] ∧
      s2.len 2 = 1 ∧ s2.len 0 = 2 ∧
      allocBlocks 16 ((s0.m_n_blocks - 1) * BLK_SZ 16 - HEADER_SZ) = 3 ∧
      Allocate 16 4 s2 ((s0.m_n_blocks - 1) * BLK_SZ 16 - HEADER_SZ) =
        some (AllocResult.bad_alloc s2)) ∧
    (∃ s0 s1 s2 s3 s4, SLPool.ctor 16 24 = some s0 ∧ s0.m_n_blocks = 3 ∧
      Allocate 16 4 s0 8 = some (AllocResult.address 8 s1) ∧
      Allocate 16 4 s1 8 = some (AllocResult.address 24 s2) ∧
      Allocate 16 4 s2 8 = some (AllocResult.bad_alloc s2) ∧
      Free 16 s2 24 = some s3 ∧
      Free 16 s3 8 = some s4 ∧
      s4.next s4.m_sentinel = Ptr.blk 1 ∧ s4.len 1 = 1 ∧
      s4.next 1 = Ptr.blk 0 ∧ s4.len 0 = 2 ∧ s4.next 0 = Ptr.blk 0) := by
  refine ⟨⟨_, _, _, rfl, rfl, rfl, rfl, rfl, rfl, rfl, rfl, rfl, rfl⟩,
    ⟨_, _, _, _, _, rfl, rfl, rfl, rfl, rfl, rfl, rfl, rfl, rfl, rfl, rfl, rfl⟩⟩

/-- C6 (freeing an area between two free runs merges the three): evaluation at a
failing input.  On `SLPool<16>(56)` (`N = 5`) three one-block areas are reserved at
blocks 0, 1, 2, then blocks 0 and 2 are freed: the free list is
`block 3 -> block 2 -> block 0`, each of length 1, and block 1 is live between the free
runs at 0 and 2.  `Free` of block 1 merges it with block 2 only: the list becomes
`block 3 (1) -> block 1 (2) -> block 0 (1)`, block 0 keeps length 1 and a request for
`1 + 1 + 1 = 3` blocks (40 bytes) throws. -/
theorem Free_between_free_runs_merges_right_only :
    ∃ s0 s1 s2 s3 s4 s5 s6, SLPool.ctor 16 56 = some s0 ∧
      Allocate 16 4 s0 8 = some (AllocResult.address 8 s1) ∧
      Allocate 16 4 s1 8 = some (AllocResult.address 24 s2) ∧
      Allocate 16 4 s2 8 = some (AllocResult.address 40 s3) ∧
      Free 16 s3 8 = some s4 ∧
      Free 16 s4 40 = some s5 ∧
      freeList s5 4 (s5.next s5.m_sentinel) = some [3, 2, 0] ∧
      s5.len 0 = 1 ∧ s5.len 1 = 1 ∧ s5.len 2 = 1 ∧
      Free 16 s5 24 = some s6 ∧
      freeList s6 4 (s6.next s6.m_sentinel) = some [3, 1, 0] ∧
      s6.len 0 = 1 ∧ s6.len 1 = 2 ∧ s6.len 3 = 1 ∧
      allocBlocks 16 40 = 3 ∧
      Allocate 16 4 s6 40 = some (AllocResult.bad_alloc s6) := by
  refine ⟨_, _, _, _, _, _, _, rfl, rfl, rfl, rfl, rfl, rfl, rfl, rfl, rfl, rfl, rfl, rfl,
    rfl, rfl, rfl, rfl, rfl⟩

/-- C7 (allocate, free, allocate again returns the same address): evaluation at a
failing input.  On `SLPool<16>(56)`, `Allocate(24)` returns offset 8 (block 0);
`Free(8)` links block 0 behind the remainder at block 2; the next `Allocate(24)`
returns offset 40 (block 2). -/
theorem Allocate_after_Free_returns_other_address :
    ∃ s0 s1 s2 s3, SLPool.ctor 16 56 = some s0 ∧
      Allocate 16 4 s0 24 = some (AllocResult.address 8 s1) ∧
      Free 16 s1 8 = some s2 ∧
      Allocate 16 4 s2 24 = some (AllocResult.address 40 s3) := by
  refine ⟨_, _, _, _, rfl, rfl, rfl, rfl⟩

/-- C8 (`Free` and `Allocate` leave the data of other live areas untouched): evaluation
at a failing input.  On `SLPool<16>(40)`: `Allocate(8)` returns offset 8 (block 0),
`Allocate(24)` returns offset 24 (block 1) and empties the list, `Free(24)` links
block 1 to itself, `Allocate(24)` returns offset 24 again and that area stays live.
`Free(8)` then writes the first word of the live area at offset 24 (the `m_next` word
of block 1): it held the address of block 1 before the call and holds the address of
block 0 after. -/
theorem Free_writes_into_live_area :
    ∃ s0 s1 s2 s3 s4 s5, SLPool.ctor 16 40 = some s0 ∧
      Allocate 16 4 s0 8 = some (AllocResult.address 8 s1) ∧
      Allocate 16 4 s1 24 = some (AllocResult.address 24 s2) ∧
      Free 16 s2 24 = some s3 ∧
      Allocate 16 4 s3 24 = some (AllocResult.address 24 s4) ∧
      Free 16 s4 8 = some s5 ∧
      headOf 16 24 = some 1 ∧ s4.next 1 = Ptr.blk 1 ∧ s5.next 1 = Ptr.blk 0 := by
  refine ⟨_, _, _, _, _, _, rfl, rfl, rfl, rfl, rfl, rfl, rfl, rfl, rfl⟩

/-- C9 (on a fresh pool a request of `N - 1` blocks hands out the whole arena and
empties the free list): evaluation at a failing input.  `SLPool<16>(4)` has
`N = (4 + 8) / 16 + 1 = 1`, so block 0 is the sentinel and the constructor links it to
itself.  `Allocate(4)` has `k = 0 = N - 1`, returns the payload of block 0, that is the
`m_next` word of the sentinel, and `m_sentinel.m_next` is still block 0 afterwards: the
free list is not empty. -/
theorem Allocate_whole_arena_single_block_pool :
    ∃ s0 s1, SLPool.ctor 16 4 = some s0 ∧ s0.m_n_blocks = 1 ∧ s0.m_sentinel = 0 ∧
      allocBlocks 16 4 = s0.m_n_blocks - 1 ∧
      Allocate 16 4 s0 4 = some (AllocResult.address (payloadAddr 16 0) s1) ∧
      s1.next s1.m_sentinel = Ptr.blk 0 := by
  refine ⟨_, _, rfl, rfl, rfl, rfl, rfl, rfl⟩

/-- C10 (the constructor sets `N = ceil((R + sizeof(length)) / B) + 1` with the true
ceiling): evaluation at a failing input.  For `R = 7 * 48 - 16 = 320` and `B = 24` the
constructor computes `N = 328 / 24 + 1 = 14`, where the ceiling gives 15: the pool
has 13 usable blocks, six 2-block areas fit and the seventh `Allocate(40)` throws. -/
theorem ctor_block_count_is_floor :
    ctorBlocks 24 (7 * 48 - 16) = some 14 ∧
    (7 * 48 - 16 + HEADER_SZ + (24 - 1)) / 24 + 1 = 15 ∧
    ∃ s0 s1 s2 s3 s4 s5 s6, SLPool.ctor 24 (7 * 48 - 16) = some s0 ∧
      allocBlocks 24 40 = 2 ∧
      Allocate 24 4 s0 40 = some (AllocResult.address 8 s1) ∧
      Allocate 24 4 s1 40 = some (AllocResult.address 56 s2) ∧
      Allocate 24 4 s2 40 = some (AllocResult.address 104 s3) ∧
      Allocate 24 4 s3 40 = some (AllocResult.address 152 s4) ∧
      Allocate 24 4 s4 40 = some (AllocResult.address 200 s5) ∧
      Allocate 24 4 s5 40 = some (AllocResult.address 248 s6) ∧
      Allocate 24 4 s6 40 = some (AllocResult.bad_alloc s6) := by
  refine ⟨rfl, rfl, _, _, _, _, _, _, _, rfl, rfl, rfl, rfl, rfl, rfl, rfl, rfl, rfl⟩

/-- First fit on the loop: a returned address is the payload of a node of the list that
is long enough, every node before it is too short, and its length field ends as the
block count. -/
theorem allocLoop_first_fit (B k : Nat) :
    ∀ (fuel : Nat) (s : SLPool) (p : Ptr) (slow a : Nat) (st : SLPool),
      allocLoop B k fuel s p slow = some (AllocResult.address a st) →
      ∀ (n : Nat) (l : List Nat), freeList s n p = some l →
        ∃ l1 i l2, l = l1 ++ i :: l2 ∧ a = payloadAddr B i ∧ k ≤ s.len i ∧
          (∀ j ∈ l1, s.len j < k) ∧ st.len i = k := by
  intro fuel
  induction fuel with
  | zero => intro s p slow a st h; simp [allocLoop] at h
  | succ f ih =>
    intro s p slow a st h n l hl
    cases p with
    | null => simp [allocLoop] at h
    | blk i =>
      obtain ⟨m, t, -, ht, rfl⟩ := freeList_blk hl
      simp only [allocLoop] at h
      split_ifs at h with h1 h2
      · simp only [Option.some.injEq, AllocResult.address.injEq] at h
        obtain ⟨ha, hst⟩ := h
        refine ⟨[], i, t, rfl, ha.symm, by omega, by simp, ?_⟩
        rw [← hst]
        simp
      · cases hsp : allocSplit s slow i k with
        | none => simp [hsp] at h
        | some s4 =>
          simp only [hsp, Option.some.injEq, AllocResult.address.injEq] at h
          obtain ⟨ha, hst⟩ := h
          refine ⟨[], i, t, rfl, ha.symm, by omega, by simp, ?_⟩
          rw [← hst]
          exact allocSplit_len s slow i k s4 hsp
      · obtain ⟨l1, c, l2, hl12, ha, hk, hsmall, hst⟩ := ih s _ i a st h m t ht
        refine ⟨i :: l1, c, l2, by simp [hl12], ha, hk, ?_, hst⟩
        intro j hj
        rcases List.mem_cons.mp hj with rfl | hj
        · omega
        · exact hsmall j hj

/-- The exact-match branch on the loop: when the walk from `p` passes the nodes `l1`,
all too short, and reaches `curr` of length exactly `k`, the loop returns the payload
of `curr` and the only write that changes the state is the new `m_next` of the
predecessor. -/
theorem allocLoop_exact (B k : Nat) (s : SLPool) (curr : Nat) (hex : s.len curr = k) :
    ∀ (l1 : List Nat) (p : Ptr) (slow fuel : Nat),
      listSeg s p l1 (Ptr.blk curr) → (∀ j ∈ l1, s.len j < k) → l1.length < fuel →
      allocLoop B k fuel s p slow =
        some (AllocResult.address (payloadAddr B curr)
          (s.setNext (l1.getLastD slow) (s.next curr))) := by
  intro l1
  induction l1 with
  | nil =>
    intro p slow fuel hseg _ hf
    simp only [listSeg] at hseg
    subst hseg
    obtain ⟨f, rfl⟩ : ∃ f, fuel = f + 1 := ⟨fuel - 1, by simp at hf; omega⟩
    simp only [allocLoop, hex, if_true, List.getLastD_nil]
    rw [setLength_self]
    simp [hex]
  | cons i l ih =>
    intro p slow fuel hseg hsmall hf
    simp only [listSeg] at hseg
    obtain ⟨rfl, hseg⟩ := hseg
    obtain ⟨f, rfl⟩ : ∃ f, fuel = f + 1 := ⟨fuel - 1, by simp at hf; omega⟩
    have hi : s.len i < k := hsmall i (List.mem_cons_self _ _)
    have h1 : ¬ s.len i = k := by omega
    have h2 : ¬ k < s.len i := by omega
    simp only [List.getLastD_cons]
    simp only [allocLoop, h1, h2, if_false]
    have hlen : l.length < f := by simp at hf; omega
    exact ih (s.next i) i f hseg (fun j hj => hsmall j (List.mem_cons_of_mem _ hj)) hlen

/-! ## Lemmas on list segments -/

/-- A segment over an appended list splits at the junction. -/
theorem listSeg_append (s : SLPool) (a b : List Nat) :
    ∀ (p q : Ptr), listSeg s p (a ++ b) q ↔ ∃ r, listSeg s p a r ∧ listSeg s r b q := by
  induction a with
  | nil =>
    intro p q
    simp only [List.nil_append, listSeg]
    constructor
    · intro h; exact ⟨p, rfl, h⟩
    · rintro ⟨r, rfl, h⟩; exact h
  | cons i a ih =>
    intro p q
    show (p = Ptr.blk i ∧ listSeg s (s.next i) (a ++ b) q) ↔
      ∃ r, (p = Ptr.blk i ∧ listSeg s (s.next i) a r) ∧ listSeg s r b q
    rw [ih]
    constructor
    · rintro ⟨hp, r, h1, h2⟩; exact ⟨r, ⟨hp, h1⟩, h2⟩
    · rintro ⟨r, ⟨hp, h1⟩, h2⟩; exact ⟨hp, r, h1, h2⟩

/-- The list of nodes from a pointer to the end of the list is unique. -/
theorem listSeg_det (s : SLPool) :
    ∀ (l l2 : List Nat) (p : Ptr), listSeg s p l Ptr.null → listSeg s p l2 Ptr.null →
      l = l2 := by
  intro l
  induction l with
  | nil =>
    intro l2 p h1 h2
    simp only [listSeg] at h1
    subst h1
    cases l2 with
    | nil => rfl
    | cons j t => simp [listSeg] at h2
  | cons i t ih =>
    intro l2 p h1 h2
    simp only [listSeg] at h1
    obtain ⟨rfl, h1⟩ := h1
    cases l2 with
    | nil => simp [listSeg] at h2
    | cons j t2 =>
      simp only [listSeg, Ptr.blk.injEq] at h2
      obtain ⟨rfl, h2⟩ := h2
      rw [ih t2 _ h1 h2]

/-- A node of a list that reaches the end does not come back: the nodes after its first
occurrence do not contain it. -/
theorem listSeg_tail_not_mem (s : SLPool) (i : Nat) (t : List Nat)
    (h : listSeg s (s.next i) t Ptr.null) : i ∉ t := by
  intro hi
  obtain ⟨a, b, rfl⟩ := List.append_of_mem hi
  obtain ⟨r, _, h2⟩ := (listSeg_append s a (i :: b) _ _).mp h
  simp only [listSeg] at h2
  have := listSeg_det s _ _ _ h h2.2
  have hlen := congrArg List.length this
  simp at hlen
  omega

/-- A list that reaches the end has no repeated node. -/
theorem listSeg_nodup (s : SLPool) :
    ∀ (l : List Nat) (p : Ptr), listSeg s p l Ptr.null → l.Nodup := by
  intro l
  induction l with
  | nil => intro p _; exact List.nodup_nil
  | cons i t ih =>
    intro p h
    simp only [listSeg] at h
    exact List.nodup_cons.mpr ⟨listSeg_tail_not_mem s i t h.2, ih _ h.2⟩

/-- A write to the `m_next` of a block outside a segment leaves the segment as it is. -/
theorem listSeg_setNext (s : SLPool) (a : Nat) (v : Ptr) :
    ∀ (l : List Nat) (p q : Ptr), a ∉ l → listSeg s p l q → listSeg (s.setNext a v) p l q := by
  intro l
  induction l with
  | nil => intro p q _ h; exact h
  | cons i t ih =>
    intro p q ha h
    simp only [listSeg] at h ⊢
    have hia : ¬ i = a := fun e => ha (by simp [e])
    refine ⟨h.1, ?_⟩
    rw [setNext_next, if_neg hia]
    exact ih _ _ (fun e => ha (List.mem_cons_of_mem _ e)) h.2

/-- Unlinking a node of a finite list: with the `m_next` of the predecessor set to the
`m_next` of `curr`, the walk from the new head visits the old list without `curr`. -/
theorem listSeg_unlink (s : SLPool) (sent curr : Nat) (l1 l2 : List Nat)
    (h : listSeg s (s.next sent) (l1 ++ curr :: l2) Ptr.null) :
    listSeg (s.setNext (l1.getLastD sent) (s.next curr))
      ((s.setNext (l1.getLastD sent) (s.next curr)).next sent) (l1 ++ l2) Ptr.null := by
  have hnd := listSeg_nodup s _ _ h
  have hsent : sent ∉ l1 ++ curr :: l2 := listSeg_tail_not_mem s sent _ h
  obtain ⟨r, hl1, hr⟩ := (listSeg_append s l1 (curr :: l2) _ _).mp h
  simp only [listSeg] at hr
  obtain ⟨rfl, hl2⟩ := hr
  rcases List.eq_nil_or_concat l1 with rfl | ⟨l0, pred, rfl⟩
  · simp only [List.getLastD_nil, List.nil_append, setNext_next, if_true]
    refine listSeg_setNext s _ _ _ _ _ ?_ hl2
    intro hm
    exact hsent (by simp [hm])
  · simp only [List.concat_eq_append] at hnd hsent hl1 ⊢
    simp only [List.getLastD_concat]
    have hps : ¬ sent = pred := by
      intro e
      exact hsent (by simp [e])
    rw [setNext_next, if_neg hps]
    obtain ⟨r2, hl0, hp⟩ := (listSeg_append s l0 [pred] _ _).mp hl1
    simp only [listSeg] at hp
    obtain ⟨rfl, -⟩ := hp
    have hnd2 : (l0 ++ pred :: curr :: l2).Nodup := by simpa using hnd
    have hp0 : pred ∉ l0 := by
      intro hm
      have := (List.nodup_append.mp hnd2).2.2
      exact this hm (List.mem_cons_self _ _)
    have hp2 : pred ∉ l2 := by
      intro hm
      have := (List.nodup_cons.mp (List.nodup_append.mp hnd2).2.1).1
      exact this (List.mem_cons_of_mem _ hm)
    rw [List.append_assoc]
    refine (listSeg_append _ l0 ([pred] ++ l2) _ _).mpr ⟨Ptr.blk pred, ?_, ?_⟩
    · exact listSeg_setNext s _ _ _ _ _ hp0 hl0
    · simp only [List.singleton_append, listSeg, setNext_next, if_true, true_and]
      exact listSeg_setNext s _ _ _ _ _ hp2 hl2

/-! ## Lemmas on the adjacency tests of `Free` -/

/-- The cast to `long int` keeps a length below `2 ^ 63`. -/
theorem toLong_small (n : Nat) (h : n < 2 ^ 63) : toLong n = (n : Int) := by
  unfold toLong SIZE_MOD
  have h1 : n % 2 ^ 64 = n := Nat.mod_eq_of_lt (by omega)
  rw [h1, if_pos h]

/-- The left-adjacency test of `Free` on a length below `2 ^ 63`. -/
theorem ptrdiffEq_left (h pre n : Nat) (hn : n < 2 ^ 63) :
    ptrdiffEq (Ptr.blk h) (Ptr.blk pre) n = decide (pre + n = h) := by
  unfold ptrdiffEq ptrdiff
  rw [toLong_small n hn]
  by_cases e : pre + n = h
  · simp [e]
    omega
  · simp [e]
    omega

/-- The right-adjacency test of `Free` on a length below `2 ^ 63`. -/
theorem ptrdiffEq_right (pos : Ptr) (h m : Nat) (hm : m < 2 ^ 63) :
    ptrdiffEq pos (Ptr.blk h) m = decide (pos = Ptr.blk (h + m)) := by
  cases pos with
  | null => simp [ptrdiffEq, ptrdiff]
  | blk q =>
    unfold ptrdiffEq ptrdiff
    rw [toLong_small m hm]
    by_cases e : q = h + m
    · simp [e]
    · simp [e]
      omega

/-- The coalescing chain of `Free` computes the table of the specification when `h`
is not `pre`, the two lengths are below `2 ^ 63`, and `pre` is not at once its own
successor and the block right after the released run. -/
theorem freeLink_eq_specCoalesce (s : SLPool) (h pre : Nat)
    (hd : h ≠ pre) (hsucc : s.next pre = Ptr.blk pre → h + s.len h ≠ pre)
    (hl1 : s.len pre < 2 ^ 63) (hl2 : s.len h < 2 ^ 63) :
    freeLink s h pre = some (specCoalesce s h pre) := by
  have hd2 : ¬ pre = h := fun e => hd e.symm
  unfold freeLink specCoalesce
  simp only [ptrdiffEq_left h pre _ hl1, ptrdiffEq_right _ h _ hl2]
  by_cases hL : pre + s.len pre = h
  · by_cases hR : s.next pre = Ptr.blk (h + s.len h)
    · simp only [hL, hR, decide_True, Bool.and_self, if_true, Ptr.deref, and_self]
      congr 1
      refine SLPool.ext_fields rfl rfl ?_ ?_
      · intro j
        by_cases hj : j = pre <;> simp [hj]
      · intro j
        by_cases hj : j = pre <;> simp [hj]
    · simp only [hL, hR, decide_True, decide_False, Bool.and_false, if_false, if_true,
        and_false, Bool.false_eq_true]
      congr 1
      refine SLPool.ext_fields rfl rfl ?_ ?_
      · intro j
        by_cases hj : j = pre <;> simp [hj]
      · intro j
        by_cases hj : j = pre <;> simp [hj]
  · by_cases hR : s.next pre = Ptr.blk (h + s.len h)
    · have hq : ¬ h + s.len h = pre := by
        intro e
        have hR2 := hR
        rw [e] at hR2
        exact hsucc hR2 e
      simp only [hL, hR, decide_True, decide_False, Bool.false_and, if_false, if_true,
        false_and, Bool.false_eq_true, Ptr.deref]
      congr 1
      refine SLPool.ext_fields rfl rfl ?_ ?_
      · intro j
        by_cases hj : j = h <;> simp [hj, hq, hd, hd2]
      · intro j
        by_cases hj : j = h <;> by_cases hj2 : j = pre <;> simp [hj, hj2, hq, hd, hd2]
    · simp only [hL, hR, decide_False, Bool.false_and, if_false, false_and,
        Bool.false_eq_true]

/-- A block that links to itself and is shorter than the request keeps the loop of
`Allocate` running: no amount of fuel gives an outcome. -/
theorem allocLoop_self_link (B k : Nat) (s : SLPool) (i : Nat)
    (hn : s.next i = Ptr.blk i) (hl : s.len i < k) :
    ∀ (fuel slow : Nat), allocLoop B k fuel s (Ptr.blk i) slow = none := by
  intro fuel
  induction fuel with
  | zero => intro slow; rfl
  | succ n ih =>
    intro slow
    have h1 : ¬ s.len i = k := by omega
    have h2 : ¬ k < s.len i := by omega
    simp only [allocLoop, h1, h2, if_false, hn]
    exact ih i

/-- A walk from a block that links to itself never reaches `nullptr`. -/
theorem freeList_self_link (s : SLPool) (i : Nat) (hn : s.next i = Ptr.blk i) :
    ∀ fuel : Nat, freeList s fuel (Ptr.blk i) = none := by
  intro fuel
  induction fuel with
  | zero => rfl
  | succ n ih => simp [freeList, hn, ih]

/-- The state the constructor builds for a block count of at least two. -/
theorem init_post_state (n : Nat) (hn : 2 ≤ n) :
    (SLPool.init n).m_n_blocks = n ∧ (SLPool.init n).m_sentinel = n - 1 ∧
    (SLPool.init n).len 0 = n - 1 ∧ (SLPool.init n).next 0 = Ptr.null ∧
    (SLPool.init n).len (n - 1) = 0 ∧ (SLPool.init n).next (n - 1) = Ptr.blk 0 := by
  have h : ¬ (0 = n - 1) := by omega
  refine ⟨rfl, rfl, ?_, ?_, ?_, ?_⟩ <;>
    simp [SLPool.init, SLPool.setNext, SLPool.setLength, SLPool.next, SLPool.len, h]

/-! ## Behaviour of the constructor, `Allocate` and `Free` -/

/-- The state the constructor leaves for a block count of at least two: block 0 heads a
run of `N - 1` blocks that ends the list, and the sentinel is block `N - 1`, of length
0, linked to block 0. -/
theorem ctor_post_state (B R : Nat) (s : SLPool) (h : SLPool.ctor B R = some s)
    (hn : 2 ≤ s.m_n_blocks) :
    s.m_sentinel = s.m_n_blocks - 1 ∧ s.len 0 = s.m_n_blocks - 1 ∧ s.next 0 = Ptr.null ∧
    s.len s.m_sentinel = 0 ∧ s.next s.m_sentinel = Ptr.blk 0 := by
  unfold SLPool.ctor at h
  cases hc : ctorBlocks B R with
  | none => simp [hc] at h
  | some n =>
    simp only [hc] at h
    split_ifs at h with h0
    simp only [Option.some.injEq] at h
    subst h
    have hn2 : 2 ≤ n := hn
    obtain ⟨-, h2, h3, h4, h5, h6⟩ := init_post_state n hn2
    have hb : (SLPool.init n).m_n_blocks = n := rfl
    rw [hb, h2]
    exact ⟨rfl, h3, h4, h5, h6⟩

/-- C11 (state after construction): evaluation at a failing input.  `SLPool<16>(4)` has
`N = (4 + 8) / 16 + 1 = 1`: block 0 is the sentinel, the last assignment
`m_sentinel.m_next = m_pool` overwrites `m_pool[0].m_next = nullptr`, and block 0 is
left with length 0 and next pointing at block 0 itself, where the claim has next =
none for block 0. -/
theorem ctor_single_block_links_to_itself :
    ∃ s0, SLPool.ctor 16 4 = some s0 ∧ s0.m_n_blocks = 1 ∧ s0.m_sentinel = 0 ∧
      s0.len 0 = 0 ∧ s0.next 0 = Ptr.blk 0 := by
  exact ⟨_, rfl, rfl, rfl, rfl, rfl⟩

/-- C12 (the free list is address-sorted in every reachable state): evaluation at a
failing input.  On `SLPool<16>(56)`, after `Allocate(24)` and `Free` of the returned
area the free list is `block 2 -> block 0`: the next of the run at block 2 is a block
with a smaller address. -/
theorem Free_leaves_list_unsorted :
    ∃ s0 s1 s2, SLPool.ctor 16 56 = some s0 ∧
      Allocate 16 4 s0 24 = some (AllocResult.address 8 s1) ∧
      Free 16 s1 8 = some s2 ∧
      freeList s2 4 (s2.next s2.m_sentinel) = some [2, 0] ∧
      s2.next 2 = Ptr.blk 0 ∧ ¬ (2 < 0) := by
  refine ⟨_, _, _, rfl, rfl, rfl, rfl, rfl, by decide⟩

/-- C13 (no two runs of the free list are adjacent in any reachable state): evaluation
at a failing input.  On `SLPool<16>(56)`, after `Allocate(24)` and `Free` of the
returned area the free list holds the runs at block 2 and at block 0; the run at
block 0 has length 2, so it ends exactly where the run at block 2 starts. -/
theorem Free_leaves_adjacent_runs :
    ∃ s0 s1 s2, SLPool.ctor 16 56 = some s0 ∧
      Allocate 16 4 s0 24 = some (AllocResult.address 8 s1) ∧
      Free 16 s1 8 = some s2 ∧
      freeList s2 4 (s2.next s2.m_sentinel) = some [2, 0] ∧
      0 + s2.len 0 = 2 := by
  refine ⟨_, _, _, rfl, rfl, rfl, rfl, rfl⟩

/-- C14 (the lengths of the free runs and of the live reserved runs add up to `N - 1`):
evaluation at two failing inputs on `SLPool<16>(24)`, where `N - 1 = 2`.  First,
`Allocate(1)` has `k = 0`: it returns block 0 and sets its length to 0 while the block
stays the only node of the list; free lengths and live lengths add up to 0.  Second,
after `Allocate(24)`, `Free`, `Allocate(24)` block 0 is live with length 2 and still
first on the free list with length 2. -/
theorem lengths_do_not_tile_arena :
    (∃ s0 s1, SLPool.ctor 16 24 = some s0 ∧ s0.m_n_blocks = 3 ∧
      Allocate 16 4 s0 1 = some (AllocResult.address 8 s1) ∧
      freeList s1 4 (s1.next s1.m_sentinel) = some [0] ∧ s1.len 0 = 0 ∧
      ([0].map s1.len).sum + s1.len 0 ≠ s1.m_n_blocks - 1) ∧
    (∃ s0 s1 s2 s3, SLPool.ctor 16 24 = some s0 ∧ s0.m_n_blocks = 3 ∧
      Allocate 16 4 s0 24 = some (AllocResult.address 8 s1) ∧
      Free 16 s1 8 = some s2 ∧
      Allocate 16 4 s2 24 = some (AllocResult.address 8 s3) ∧
      s3.len 0 = 2 ∧ s3.next s3.m_sentinel = Ptr.blk 0 ∧
      s3.len 0 + s3.len 0 ≠ s3.m_n_blocks - 1) := by
  refine ⟨⟨_, _, rfl, rfl, rfl, rfl, rfl, by decide⟩,
    ⟨_, _, _, _, rfl, rfl, rfl, rfl, rfl, rfl, rfl, by decide⟩⟩

/-- C15 (no cycles, every call terminates): evaluation at a failing input.  On
`SLPool<16>(24)`, after `Allocate(24)` and `Free` of the returned area the sentinel
links to block 0 and block 0 links to itself: the walk from `m_sentinel.m_next` never
reaches the end of the list, and `Allocate(40)`, which needs 3 blocks, has no outcome
for any amount of fuel. -/
theorem Free_on_empty_list_builds_cycle :
    ∃ s0 s1 s2, SLPool.ctor 16 24 = some s0 ∧
      Allocate 16 4 s0 24 = some (AllocResult.address 8 s1) ∧
      Free 16 s1 8 = some s2 ∧
      s2.next s2.m_sentinel = Ptr.blk 0 ∧ s2.next 0 = Ptr.blk 0 ∧
      (∀ fuel, freeList s2 fuel (s2.next s2.m_sentinel) = none) ∧
      (∀ fuel, Allocate 16 fuel s2 40 = none) := by
  refine ⟨_, _, _, rfl, rfl, rfl, rfl, rfl, ?_, ?_⟩
  · intro fuel
    refine freeList_self_link _ 0 ?_ fuel
    rfl
  · intro fuel
    refine allocLoop_self_link 16 _ _ 0 ?_ ?_ fuel _
    · rfl
    · decide

/-- C16 (`Free` takes as predecessor the free run with the greatest address below the
released head): evaluation at a failing input.  On `SLPool<16>(56)` the calls
`Allocate(8)` three times, `Free(8)`, `Allocate(8)`, `Free(40)` leave the sorted free
list `block 0 -> block 2` and the live areas at blocks 1 and 3.  For `Free(56)`, the
release of block 3, the greatest free address below 3 is block 2, but the walk stops
at block 0: the freed block is linked between block 0 and block 2 and is not merged
with block 2, which ends exactly at block 3. -/
theorem Free_selects_first_node_as_predecessor :
    ∃ s0 s1 s2 s3 s4 s5 s6 s7, SLPool.ctor 16 56 = some s0 ∧
      Allocate 16 4 s0 8 = some (AllocResult.address 8 s1) ∧
      Allocate 16 4 s1 8 = some (AllocResult.address 24 s2) ∧
      Allocate 16 4 s2 8 = some (AllocResult.address 40 s3) ∧
      Free 16 s3 8 = some s4 ∧
      Allocate 16 4 s4 8 = some (AllocResult.address 56 s5) ∧
      Free 16 s5 40 = some s6 ∧
      freeList s6 4 (s6.next s6.m_sentinel) = some [0, 2] ∧
      headOf 16 56 = some 3 ∧
      freeLoop 3 (3 + 2) s6 (s6.next s6.m_sentinel) s6.m_sentinel = some (Ptr.blk 0) ∧
      Free 16 s6 56 = some s7 ∧
      freeList s7 4 (s7.next s7.m_sentinel) = some [0, 3, 2] ∧
      s7.len 2 = 1 ∧ s7.len 3 = 1 := by
  refine ⟨_, _, _, _, _, _, _, _, rfl, rfl, rfl, rfl, rfl, rfl, rfl, rfl, rfl, rfl, rfl,
    rfl, rfl, rfl⟩

/-- C17 (coalescing table), as amended: for a pool with a non-empty free list, the node
`pre` selected by the walk of `Free`, `succ = pre.next`, a released head `h` distinct
from `pre`, the lengths of `pre` and `h` below `2 ^ 63`, and `pre` not at once its own
successor and the block `h + m` right after the released run, `Free` yields exactly the
state of the table row chosen by the two adjacency tests, and the length and next of
every block other than `pre` and `h` are unchanged. -/
theorem Free_coalescing_table (B : Nat) (s : SLPool) (ptr h pre : Nat)
    (hh : headOf B ptr = some h)
    (hne : s.next s.m_sentinel ≠ Ptr.null)
    (hpre : freeLoop h (h + 2) s (s.next s.m_sentinel) s.m_sentinel = some (Ptr.blk pre))
    (hd : h ≠ pre) (hsucc : s.next pre = Ptr.blk pre → h + s.len h ≠ pre)
    (hl1 : s.len pre < 2 ^ 63) (hl2 : s.len h < 2 ^ 63) :
    Free B s ptr = some (specCoalesce s h pre) ∧
    ∀ j, j ≠ pre → j ≠ h →
      (specCoalesce s h pre).len j = s.len j ∧ (specCoalesce s h pre).next j = s.next j := by
  constructor
  · unfold Free
    simp only [hh, if_neg hne, hpre]
    exact freeLink_eq_specCoalesce s h pre hd hsucc hl1 hl2
  · intro j hj1 hj2
    unfold specCoalesce
    simp only
    split_ifs <;> simp [hj1, hj2]

/-- Witness of C17 on `SLPool<16>(56)`.  After `Allocate(24)`, `Free` of block 0 with
`pre` = block 2 takes the last row of the table.  After `Allocate(24)`, `Allocate(24)`,
`Free(8)` the list is block 0 linked to itself, so that `pre` = block 0 is its own
successor; `Free(40)` releases block 2, left adjacent to block 0 and not right
adjacent, and takes the second row: block 0 gets the length 4 and keeps its next. -/
theorem Free_coalescing_table_witness :
    Allocate 16 4 (SLPool.init 5) 24 = some (AllocResult.address 8 poolAfterAllocate) ∧
    Free 16 poolAfterAllocate 8 = some (specCoalesce poolAfterAllocate 0 2) ∧
    (specCoalesce poolAfterAllocate 0 2).next 2 = Ptr.blk 0 ∧
    (∃ s2, Allocate 16 4 poolAfterAllocate 24 = some (AllocResult.address 40 s2) ∧
      Free 16 s2 8 = some poolSelfLinkedRun) ∧
    poolSelfLinkedRun.next 0 = Ptr.blk 0 ∧
    Free 16 poolSelfLinkedRun 40 = some (specCoalesce poolSelfLinkedRun 2 0) ∧
    (specCoalesce poolSelfLinkedRun 2 0).len 0 = 4 ∧
    (specCoalesce poolSelfLinkedRun 2 0).next 0 = Ptr.blk 0 :=
  ⟨rfl, (Free_coalescing_table 16 poolAfterAllocate 8 0 2 rfl (by decide) rfl (by decide)
    (fun e => absurd e (by decide)) (by decide) (by decide)).1, rfl, ⟨_, rfl, rfl⟩, rfl,
    (Free_coalescing_table 16 poolSelfLinkedRun 40 2 0 rfl (by decide) rfl (by decide)
    (fun _ => by decide) (by decide) (by decide)).1, rfl, rfl⟩

/-- C17 as stated fails where `pre` is its own successor and the block right after the
released run, and where a length is not below `2 ^ 63`.  First, on `SLPool<16>(24)`
after `Allocate(8)`, `Allocate(8)`, `Free(24)` the list is block 1 linked to itself.
For `Free(8)` the walk selects `pre` = block 1 = `succ`, the released head is block 0,
not left adjacent (`1 + 1 = 0` fails) and right adjacent (`0 + 1 = 1`).  The table
row sets `h.next = succ.next`, block 1 in the state before the call; `Free` writes
`pre->m_next = current` first and then copies it: block 0 is linked to itself.
Second, in `poolHugeLength` the walk selects `pre` = block 1 of length `2 ^ 64 - 1` for
`Free(8)`; `1 + (2 ^ 64 - 1) = 0` fails, so the table links block 0 behind block 1,
while `Free` compares `(long int) pre->m_length = -1` with `current - pre = -1` and
takes the left-adjacent row: block 1 keeps its next and gets the length
`(2 ^ 64 - 1 + 2) mod 2 ^ 64 = 1`.  Third, in `poolHugeReleased` the released head is
block 1 of length `2 ^ 64 - 1`, `pre` is block 2 and `succ` is block 0;
`1 + (2 ^ 64 - 1) = 0` fails, so the table sets the next of block 1 to block 0, while
`Free` compares `(long int) current->m_length = -1` with `pos - current = -1`, takes
the right-adjacent row and sets the next of block 1 to the next of block 0, null. -/
theorem Free_table_fails_on_self_linked_pre :
    (∃ s0 s1 s2 s3 s4, SLPool.ctor 16 24 = some s0 ∧
      Allocate 16 4 s0 8 = some (AllocResult.address 8 s1) ∧
      Allocate 16 4 s1 8 = some (AllocResult.address 24 s2) ∧
      Free 16 s2 24 = some s3 ∧
      s3.next s3.m_sentinel ≠ Ptr.null ∧ headOf 16 8 = some 0 ∧
      freeLoop 0 (0 + 2) s3 (s3.next s3.m_sentinel) s3.m_sentinel = some (Ptr.blk 1) ∧
      s3.next 1 = Ptr.blk 1 ∧ s3.len 1 = 1 ∧ s3.len 0 = 1 ∧
      Free 16 s3 8 = some s4 ∧
      s4.next 0 = Ptr.blk 0 ∧ (specCoalesce s3 0 1).next 0 = Ptr.blk 1) ∧
    (poolHugeLength.next poolHugeLength.m_sentinel ≠ Ptr.null ∧ headOf 16 8 = some 0 ∧
      freeLoop 0 (0 + 2) poolHugeLength (poolHugeLength.next poolHugeLength.m_sentinel)
        poolHugeLength.m_sentinel = some (Ptr.blk 1) ∧
      poolHugeLength.len 1 = 2 ^ 64 - 1 ∧ poolHugeLength.next 1 = Ptr.null ∧
      1 + poolHugeLength.len 1 ≠ 0 ∧
      ∃ st, Free 16 poolHugeLength 8 = some st ∧
        st.len 1 = 1 ∧ st.next 1 = Ptr.null ∧
        (specCoalesce poolHugeLength 0 1).next 1 = Ptr.blk 0) ∧
    (poolHugeReleased.next poolHugeReleased.m_sentinel ≠ Ptr.null ∧
      headOf 16 24 = some 1 ∧
      freeLoop 1 (1 + 2) poolHugeReleased
        (poolHugeReleased.next poolHugeReleased.m_sentinel)
        poolHugeReleased.m_sentinel = some (Ptr.blk 2) ∧
      poolHugeReleased.len 1 = 2 ^ 64 - 1 ∧ poolHugeReleased.len 2 = 1 ∧
      poolHugeReleased.next 2 = Ptr.blk 0 ∧ poolHugeReleased.next 0 = Ptr.null ∧
      1 + poolHugeReleased.len 1 ≠ 0 ∧
      ∃ st, Free 16 poolHugeReleased 24 = some st ∧
        st.next 1 = Ptr.null ∧
        (specCoalesce poolHugeReleased 1 2).next 1 = Ptr.blk 0) := by
  refine ⟨⟨_, _, _, _, _, rfl, rfl, rfl, rfl, by decide, rfl, rfl, rfl, rfl, rfl, rfl, rfl,
    rfl⟩, ⟨by decide, rfl, rfl, rfl, rfl, by decide, _, rfl, rfl, rfl, rfl⟩,
    ⟨by decide, rfl, rfl, rfl, rfl, rfl, rfl, by decide, _, rfl, rfl, rfl⟩⟩

/-- C18 (first fit): for a pool whose free list is finite, with nodes `l`, when
`Allocate(bytes)` returns an address, that address is the payload of a node `i` of `l`
with `m_length >= k`, every node before `i` on the list has `m_length < k`, and the
length field of `i` is `k` after the call. -/
theorem Allocate_first_fit (B : Nat) (s : SLPool) (bytes n : Nat) (l : List Nat)
    (hfin : freeList s n (s.next s.m_sentinel) = some l)
    (fuel a : Nat) (st : SLPool)
    (h : Allocate B fuel s bytes = some (AllocResult.address a st)) :
    ∃ l1 i l2, l = l1 ++ i :: l2 ∧ a = payloadAddr B i ∧
      allocBlocks B bytes ≤ s.len i ∧ (∀ j ∈ l1, s.len j < allocBlocks B bytes) ∧
      st.len i = allocBlocks B bytes :=
  allocLoop_first_fit B _ fuel s _ _ a st h n l hfin

/-- Witness of C18 on `SLPool<16>(56)` after `Allocate(24)`, `Allocate(8)`, `Free(8)`:
the free list is block 3, of length 1, then block 0, of length 2.  `Allocate(24)` asks
for 2 blocks, passes block 3, which is too short, and reserves block 0, the second
node of the list. -/
theorem Allocate_first_fit_witness :
    (∃ s2, Allocate 16 4 poolAfterAllocate 8 = some (AllocResult.address 40 s2) ∧
      Free 16 s2 8 = some poolShortRunFirst) ∧
    freeList poolShortRunFirst 3 (poolShortRunFirst.next poolShortRunFirst.m_sentinel) =
      some [3, 0] ∧
    poolShortRunFirst.len 3 < allocBlocks 16 24 ∧ 8 = payloadAddr 16 0 ∧
    ∃ st, Allocate 16 4 poolShortRunFirst 24 = some (AllocResult.address 8 st) ∧
      ∃ l1 i l2, [3, 0] = l1 ++ i :: l2 ∧ 8 = payloadAddr 16 i ∧
        allocBlocks 16 24 ≤ poolShortRunFirst.len i ∧
        (∀ j ∈ l1, poolShortRunFirst.len j < allocBlocks 16 24) ∧
        st.len i = allocBlocks 16 24 :=
  ⟨⟨_, rfl, rfl⟩, rfl, by decide, rfl, _, rfl,
    Allocate_first_fit 16 poolShortRunFirst 24 3 [3, 0] rfl 4 8 _ rfl⟩

/-- C20 (exact match), as amended: let the walk from `m_sentinel.m_next` pass the nodes
`l1`, all shorter than `k`, and reach `curr` with `m_length = k`.  Then `Allocate`
returns the payload of `curr` as soon as the fuel exceeds the length of `l1`; the state
after the call differs from the state before only in the next field of the predecessor
(the last node of `l1`, the sentinel when `l1` is empty), which is `curr.next`; every
length, that of `curr` included, is unchanged; and when the free list is finite, the
new free list is the old one with `curr` removed. -/
theorem Allocate_exact_match (B : Nat) (s : SLPool) (bytes curr : Nat) (l1 : List Nat)
    (hseg : listSeg s (s.next s.m_sentinel) l1 (Ptr.blk curr))
    (hsmall : ∀ j ∈ l1, s.len j < allocBlocks B bytes)
    (hex : s.len curr = allocBlocks B bytes) :
    ∃ st, (∀ fuel, l1.length < fuel →
        Allocate B fuel s bytes = some (AllocResult.address (payloadAddr B curr) st)) ∧
      (∀ j, st.len j = s.len j) ∧ st.len curr = allocBlocks B bytes ∧
      (∀ j, j ≠ l1.getLastD s.m_sentinel → st.next j = s.next j) ∧
      st.next (l1.getLastD s.m_sentinel) = s.next curr ∧
      (∀ l2, listSeg s (s.next s.m_sentinel) (l1 ++ curr :: l2) Ptr.null →
        listSeg st (st.next st.m_sentinel) (l1 ++ l2) Ptr.null) := by
  refine ⟨s.setNext (l1.getLastD s.m_sentinel) (s.next curr), ?_, ?_, ?_, ?_, ?_, ?_⟩
  · intro fuel hf
    exact allocLoop_exact B _ s curr hex l1 _ _ fuel hseg hsmall hf
  · intro j
    simp
  · simp [hex]
  · intro j hj
    rw [setNext_next, if_neg hj]
  · simp
  · intro l2 hl
    exact listSeg_unlink s s.m_sentinel curr l1 l2 hl

/-- Witness of C20 on the pool built by `SLPool<16>(24)`: `Allocate(24)` takes the run
at block 0, whose length is exactly 2. -/
theorem Allocate_exact_match_witness :
    listSeg (SLPool.init 3) ((SLPool.init 3).next (SLPool.init 3).m_sentinel) []
      (Ptr.blk 0) ∧
    (SLPool.init 3).len 0 = allocBlocks 16 24 ∧
    ∃ st, (∀ fuel, ([] : List Nat).length < fuel →
        Allocate 16 fuel (SLPool.init 3) 24 =
          some (AllocResult.address (payloadAddr 16 0) st)) ∧
      (∀ j, st.len j = (SLPool.init 3).len j) ∧ st.len 0 = allocBlocks 16 24 ∧
      (∀ j, j ≠ ([] : List Nat).getLastD (SLPool.init 3).m_sentinel →
        st.next j = (SLPool.init 3).next j) ∧
      st.next (([] : List Nat).getLastD (SLPool.init 3).m_sentinel) = (SLPool.init 3).next 0 ∧
      (∀ l2, listSeg (SLPool.init 3) ((SLPool.init 3).next (SLPool.init 3).m_sentinel)
          (([] : List Nat) ++ 0 :: l2) Ptr.null →
        listSeg st (st.next st.m_sentinel) (([] : List Nat) ++ l2) Ptr.null) :=
  ⟨rfl, rfl, Allocate_exact_match 16 (SLPool.init 3) 24 0 [] rfl (by simp) rfl⟩

/-- C20 as stated fails on a list that does not end.  On `SLPool<16>(24)` after
`Allocate(24)` and `Free(8)` block 0, of length 2, is linked to itself.  `Allocate(24)`
finds it as the first fitting run, of length exactly `k = 2`, and sets the next of the
sentinel to the next of block 0, which is block 0: the run stays first on the free
list, it is not removed. -/
theorem Allocate_exact_match_keeps_self_linked_run :
    ∃ s0 s1 s2 s3, SLPool.ctor 16 24 = some s0 ∧
      Allocate 16 4 s0 24 = some (AllocResult.address 8 s1) ∧
      Free 16 s1 8 = some s2 ∧
      s2.next s2.m_sentinel = Ptr.blk 0 ∧ s2.len 0 = allocBlocks 16 24 ∧
      s2.next 0 = Ptr.blk 0 ∧
      Allocate 16 4 s2 24 = some (AllocResult.address (payloadAddr 16 0) s3) ∧
      s3.next s3.m_sentinel = Ptr.blk 0 := by
  refine ⟨_, _, _, _, rfl, rfl, rfl, rfl, rfl, rfl, rfl, rfl⟩

/-! ## Header round trip -/

/-- The block size is positive. -/
theorem BLK_SZ_pos (B : Nat) : 0 < BLK_SZ B := by
  unfold BLK_SZ HEADER_SZ
  omega

/-- Stepping back one header from the payload address of block `i` gives block `i`. -/
theorem headOf_payloadAddr (B i : Nat) : headOf B (payloadAddr B i) = some i := by
  unfold headOf payloadAddr
  have hpos := BLK_SZ_pos B
  have h1 : i * BLK_SZ B + HEADER_SZ - HEADER_SZ = i * BLK_SZ B := by omega
  have h2 : HEADER_SZ ≤ i * BLK_SZ B + HEADER_SZ := by omega
  rw [h1]
  simp [h2, Nat.mul_div_cancel _ hpos]

/-- A returned address is the payload address of a block whose length field is the
block count after the call. -/
theorem allocLoop_address (B k : Nat) :
    ∀ (fuel : Nat) (s : SLPool) (p : Ptr) (slow a : Nat) (st : SLPool),
      allocLoop B k fuel s p slow = some (AllocResult.address a st) →
      ∃ i, a = payloadAddr B i ∧ st.len i = k := by
  intro fuel
  induction fuel with
  | zero => intro s p slow a st h; simp [allocLoop] at h
  | succ f ih =>
    intro s p slow a st h
    cases p with
    | null => simp [allocLoop] at h
    | blk i =>
      simp only [allocLoop] at h
      split_ifs at h with h1 h2
      · simp only [Option.some.injEq, AllocResult.address.injEq] at h
        obtain ⟨ha, hst⟩ := h
        refine ⟨i, ha.symm, ?_⟩
        rw [← hst]
        simp
      · cases hsp : allocSplit s slow i k with
        | none => simp [hsp] at h
        | some s4 =>
          simp only [hsp, Option.some.injEq, AllocResult.address.injEq] at h
          obtain ⟨ha, hst⟩ := h
          refine ⟨i, ha.symm, ?_⟩
          rw [← hst]
          exact allocSplit_len s slow i k s4 hsp
      · exact ih s _ i a st h

/-- C21 (header round trip): for every call of `Allocate` that returns an address `p`,
`p` is `sizeof(length)` bytes past the start of a block `i`, the head of the reserved
run; the first step of `Free(p)`, stepping back one header, gives the same block `i`;
and the length field of `i` after the call is the block count `k` of the request. -/
theorem Allocate_header_round_trip (B fuel : Nat) (s : SLPool) (bytes p : Nat) (st : SLPool)
    (h : Allocate B fuel s bytes = some (AllocResult.address p st)) :
    ∃ i, p = i * BLK_SZ B + HEADER_SZ ∧ headOf B p = some i ∧
      p - HEADER_SZ = i * BLK_SZ B ∧ st.len i = allocBlocks B bytes := by
  obtain ⟨i, hp, hl⟩ := allocLoop_address B _ fuel s _ _ p st h
  refine ⟨i, hp, ?_, ?_, hl⟩
  · rw [hp]
    exact headOf_payloadAddr B i
  · rw [hp]
    unfold payloadAddr
    omega

/-- Witness of C21 on the pool built by `SLPool<16>(56)`: `Allocate(24)` returns offset
8, one header past block 0. -/
theorem Allocate_header_round_trip_witness :
    Allocate 16 4 (SLPool.init 5) 24 = some (AllocResult.address 8 poolAfterAllocate) ∧
    ∃ i, 8 = i * BLK_SZ 16 + HEADER_SZ ∧ headOf 16 8 = some i ∧
      8 - HEADER_SZ = i * BLK_SZ 16 ∧ poolAfterAllocate.len i = allocBlocks 16 24 :=
  ⟨rfl, Allocate_header_round_trip 16 4 (SLPool.init 5) 24 8 poolAfterAllocate rfl⟩
/-! ## The search loop of `Free` -/

/-- With the released head below `slow`, the loop condition of `Free` is false on its
first evaluation: the loop stops at the node it starts from. -/
theorem freeLoop_no_advance (h slow f fuel : Nat) (t : SLPool) (hlt : h < slow) :
    freeLoop h (fuel + 1) t (Ptr.blk f) slow = some (Ptr.blk f) := by
  have hc : ¬ (((h : Int) - (f : Int) < (h : Int) - (slow : Int)) ∧
      (0 < (h : Int) - (f : Int))) := by
    omega
  simp only [freeLoop, hc, if_false]

/-- The coalescing chain of `Free` always gives a state, with the same sentinel, and
writes no field of a block other than `pre` and `current`. -/
theorem freeLink_frame (s : SLPool) (current pre : Nat) :
    ∃ st, freeLink s current pre = some st ∧ st.m_sentinel = s.m_sentinel ∧
      st.m_n_blocks = s.m_n_blocks ∧
      ∀ j, j ≠ pre → j ≠ current → st.next j = s.next j ∧ st.len j = s.len j := by
  unfold freeLink
  cases hpos : s.next pre with
  | null =>
    have hR : ptrdiffEq Ptr.null (Ptr.blk current) (s.len current) = false := by
      simp [ptrdiffEq, ptrdiff]
    simp only [hR, Bool.and_false, Bool.false_eq_true, if_false]
    split_ifs
    · exact ⟨_, rfl, rfl, rfl, fun j h1 h2 => by simp [h1, h2]⟩
    · exact ⟨_, rfl, rfl, rfl, fun j h1 h2 => by simp [h1, h2]⟩
  | blk q =>
    simp only [Ptr.deref]
    split_ifs
    · exact ⟨_, rfl, rfl, rfl, fun j h1 h2 => by simp [h1, h2]⟩
    · exact ⟨_, rfl, rfl, rfl, fun j h1 h2 => by simp [h1, h2]⟩
    · exact ⟨_, rfl, rfl, rfl, fun j h1 h2 => by simp [h1, h2]⟩
    · exact ⟨_, rfl, rfl, rfl, fun j h1 h2 => by simp [h1, h2]⟩

/-- With the released head below the sentinel and a non-empty list, `Free` runs the
coalescing chain with `pre` the first node of the list. -/
theorem Free_nonempty (B : Nat) (s : SLPool) (ptr h f : Nat)
    (hh : headOf B ptr = some h) (hlt : h < s.m_sentinel)
    (hf : s.next s.m_sentinel = Ptr.blk f) : Free B s ptr = freeLink s h f := by
  unfold Free
  have hne : ¬ (Ptr.blk f = Ptr.null) := fun e => by cases e
  simp only [hh, hf, if_neg hne]
  rw [freeLoop_no_advance h s.m_sentinel f (h + 1) s hlt]

/-- With the released head below the sentinel and an empty list, `Free` links the
sentinel to the released head and runs the coalescing chain with `pre` the released
head itself. -/
theorem Free_empty (B : Nat) (s : SLPool) (ptr h : Nat)
    (hh : headOf B ptr = some h) (hlt : h < s.m_sentinel)
    (hf : s.next s.m_sentinel = Ptr.null) :
    Free B s ptr = freeLink (s.setNext s.m_sentinel (Ptr.blk h)) h h := by
  unfold Free
  simp only [hh, hf, if_true]
  rw [freeLoop_no_advance h s.m_sentinel h (h + 1) _ hlt]

/-- C23 (the search loop of `Free` never advances), as amended: for a pool whose
sentinel is the last block and a released head `h` below it, the loop stops at the
node it starts from on its first test, so `pre` is the first node of the free list, or
`h` itself when the list is empty; when the list is empty `Free` sets the sentinel's
next to `h`, and when the list is not empty and its first node is not the sentinel
itself `Free` leaves the sentinel's next as it was. -/
theorem Free_loop_never_advances (B : Nat) (s : SLPool) (ptr h : Nat)
    (hh : headOf B ptr = some h)
    (hs : s.m_sentinel = s.m_n_blocks - 1) (hreal : h < s.m_n_blocks - 1) :
    (∀ (fuel f : Nat) (t : SLPool),
      freeLoop h (fuel + 1) t (Ptr.blk f) s.m_sentinel = some (Ptr.blk f)) ∧
    (∀ f, s.next s.m_sentinel = Ptr.blk f → Free B s ptr = freeLink s h f) ∧
    (s.next s.m_sentinel = Ptr.null →
      Free B s ptr = freeLink (s.setNext s.m_sentinel (Ptr.blk h)) h h ∧
      ∃ st, Free B s ptr = some st ∧ st.next st.m_sentinel = Ptr.blk h) ∧
    (∀ f, s.next s.m_sentinel = Ptr.blk f → f ≠ s.m_sentinel →
      ∃ st, Free B s ptr = some st ∧ st.next st.m_sentinel = s.next s.m_sentinel) := by
  have hlt : h < s.m_sentinel := by rw [hs]; exact hreal
  refine ⟨fun fuel f t => freeLoop_no_advance h _ f fuel t hlt,
    fun f hf => Free_nonempty B s ptr h f hh hlt hf, ?_, ?_⟩
  · intro hf
    refine ⟨Free_empty B s ptr h hh hlt hf, ?_⟩
    rw [Free_empty B s ptr h hh hlt hf]
    obtain ⟨st, hst, hsent, -, hframe⟩ :=
      freeLink_frame (s.setNext s.m_sentinel (Ptr.blk h)) h h
    refine ⟨st, hst, ?_⟩
    rw [hsent]
    have hne : s.m_sentinel ≠ h := by omega
    rw [setNext_m_sentinel, (hframe s.m_sentinel hne hne).1]
    simp
  · intro f hf hfs
    rw [Free_nonempty B s ptr h f hh hlt hf]
    obtain ⟨st, hst, hsent, -, hframe⟩ := freeLink_frame s h f
    refine ⟨st, hst, ?_⟩
    rw [hsent]
    have hne : s.m_sentinel ≠ h := by omega
    exact (hframe s.m_sentinel (Ne.symm hfs) hne).1

/-- Witness of C23 on `SLPool<16>(56)` after `Allocate(24)`: for `Free(8)` the list is
not empty and `pre` is its first node, block 2. -/
theorem Free_loop_never_advances_witness :
    headOf 16 8 = some 0 ∧ poolAfterAllocate.next poolAfterAllocate.m_sentinel = Ptr.blk 2 ∧
    Free 16 poolAfterAllocate 8 = freeLink poolAfterAllocate 0 2 ∧
    ∃ st, Free 16 poolAfterAllocate 8 = some st ∧
      st.next st.m_sentinel = poolAfterAllocate.next poolAfterAllocate.m_sentinel :=
  ⟨rfl, rfl,
    (Free_loop_never_advances 16 poolAfterAllocate 8 0 rfl rfl (by decide)).2.1 2 rfl,
    (Free_loop_never_advances 16 poolAfterAllocate 8 0 rfl rfl (by decide)).2.2.2 2 rfl
      (by decide)⟩

/-- C23 as stated fails where the first node of the list is the sentinel itself.  In
`poolSentinelSelfLinked` the sentinel is the last block, block 2, and links to itself;
the released head is block 0, a real block.  The list is not empty, `pre` is the
sentinel, and `Free(8)` changes the sentinel's next from block 2 to block 0. -/
theorem Free_changes_self_linked_sentinel :
    poolSentinelSelfLinked.m_sentinel = poolSentinelSelfLinked.m_n_blocks - 1 ∧
    headOf 16 8 = some 0 ∧ 0 < poolSentinelSelfLinked.m_n_blocks - 1 ∧
    poolSentinelSelfLinked.next poolSentinelSelfLinked.m_sentinel = Ptr.blk 2 ∧
    freeLoop 0 (0 + 2) poolSentinelSelfLinked
      (poolSentinelSelfLinked.next poolSentinelSelfLinked.m_sentinel)
      poolSentinelSelfLinked.m_sentinel = some (Ptr.blk 2) ∧
    ∃ st, Free 16 poolSentinelSelfLinked 8 = some st ∧
      st.next st.m_sentinel = Ptr.blk 0 := by
  refine ⟨rfl, rfl, by decide, rfl, rfl, _, rfl, rfl⟩

/-! ## Block-count arithmetic -/

/-- Below `2 ^ 53` the conversion to `double` is exact: `std::ceil` returns its
argument. -/
theorem stdCeil_small (n : Nat) (h : n < 2 ^ 53) : stdCeil n = n := by
  unfold stdCeil
  rw [if_pos h]

/-- C25 (block-count arithmetic), as amended: for every byte count with
`bytes + HEADER_SZ < 2 ^ 64` and `(bytes + HEADER_SZ) / BLK_SZ < 2 ^ 53`, the block count
of `Allocate` is the floor of `(bytes + HEADER_SZ) / BLK_SZ`; it equals the true ceiling
exactly when `bytes + HEADER_SZ` is a multiple of `BLK_SZ`, and the reserved region holds
the request, `k * BLK_SZ >= bytes + HEADER_SZ`, exactly in that case; `k = 0` for every
`bytes < BLK_SZ - HEADER_SZ`.  For every capacity `R` with `R + HEADER_SZ < 2 ^ 64` and
`(R + HEADER_SZ) / BLK_SIZE + 1 < 2 ^ 32`, the block count of the constructor is
`(R + HEADER_SZ) / BLK_SIZE + 1`. -/
theorem allocBlocks_is_floor (B bytes : Nat)
    (h1 : bytes + HEADER_SZ < SIZE_MOD) (h2 : (bytes + HEADER_SZ) / BLK_SZ B < 2 ^ 53) :
    allocBlocks B bytes = (bytes + HEADER_SZ) / BLK_SZ B ∧
    (allocBlocks B bytes = (bytes + HEADER_SZ + (BLK_SZ B - 1)) / BLK_SZ B ↔
      BLK_SZ B ∣ bytes + HEADER_SZ) ∧
    (bytes + HEADER_SZ ≤ allocBlocks B bytes * BLK_SZ B ↔ BLK_SZ B ∣ bytes + HEADER_SZ) ∧
    (bytes < BLK_SZ B - HEADER_SZ → allocBlocks B bytes = 0) ∧
    (∀ R, R + HEADER_SZ < SIZE_MOD → (R + HEADER_SZ) / B + 1 < UINT_MOD →
      ctorBlocks B R = some ((R + HEADER_SZ) / B + 1)) := by
  have hpos := BLK_SZ_pos B
  have hk : allocBlocks B bytes = (bytes + HEADER_SZ) / BLK_SZ B := by
    unfold allocBlocks
    rw [Nat.mod_eq_of_lt h1, stdCeil_small _ h2]
  have hdm := Nat.div_add_mod (bytes + HEADER_SZ) (BLK_SZ B)
  have hml := Nat.mod_lt (bytes + HEADER_SZ) hpos
  refine ⟨hk, ?_, ?_, ?_, ?_⟩
  · rw [hk, Nat.dvd_iff_mod_eq_zero]
    constructor
    · intro he
      by_contra hne
      have hlt : (bytes + HEADER_SZ) / BLK_SZ B <
          (bytes + HEADER_SZ + (BLK_SZ B - 1)) / BLK_SZ B := by
        apply (Nat.le_div_iff_mul_le hpos).mpr
        have : BLK_SZ B * ((bytes + HEADER_SZ) / BLK_SZ B) =
            (bytes + HEADER_SZ) / BLK_SZ B * BLK_SZ B := Nat.mul_comm _ _
        rw [Nat.succ_mul]
        omega
      omega
    · intro hz
      have hx : bytes + HEADER_SZ = BLK_SZ B * ((bytes + HEADER_SZ) / BLK_SZ B) := by omega
      symm
      apply Nat.div_eq_of_lt_le
      · rw [Nat.mul_comm]; omega
      · rw [Nat.mul_comm, Nat.mul_succ]; omega
  · rw [hk, Nat.dvd_iff_mod_eq_zero]
    have : (bytes + HEADER_SZ) / BLK_SZ B * BLK_SZ B =
        BLK_SZ B * ((bytes + HEADER_SZ) / BLK_SZ B) := Nat.mul_comm _ _
    constructor
    · intro hle; omega
    · intro hz; omega
  · intro hlt
    rw [hk]
    exact Nat.div_eq_of_lt (by omega)
  · intro R hR hq
    unfold ctorBlocks
    have hq2 : (R + HEADER_SZ) / B < 2 ^ 53 := by
      unfold UINT_MOD at hq
      omega
    simp only [Nat.mod_eq_of_lt hR, stdCeil_small _ hq2]
    have hq3 : (R + HEADER_SZ) / B < UINT_MOD := by omega
    rw [if_pos hq3, Nat.mod_eq_of_lt hq]

/-- The binary logarithm of a number between two consecutive powers of two. -/
theorem log2_of_range (n k : Nat) (h1 : 2 ^ k ≤ n) (h2 : n < 2 ^ (k + 1)) :
    Nat.log2 n = k := by
  have hn : n ≠ 0 := by
    have := Nat.two_pow_pos k
    omega
  have ha : Nat.log2 n < k + 1 := (Nat.log2_lt hn).mpr h2
  have hb : ¬ Nat.log2 n < k := by
    intro hlt
    have := (Nat.log2_lt hn).mp hlt
    omega
  omega

/-- Witness of C25: a request of 9 bytes on `SLPool<16>`, and the capacity 320 of
`SLPool<24>`. -/
theorem allocBlocks_is_floor_witness :
    9 + HEADER_SZ < SIZE_MOD ∧ (9 + HEADER_SZ) / BLK_SZ 16 < 2 ^ 53 ∧
    allocBlocks 16 9 = (9 + HEADER_SZ) / BLK_SZ 16 ∧
    ctorBlocks 16 320 = some ((320 + HEADER_SZ) / 16 + 1) :=
  ⟨by decide, by decide,
    (allocBlocks_is_floor 16 9 (by decide) (by decide)).1,
    (allocBlocks_is_floor 16 9 (by decide) (by decide)).2.2.2.2 320 (by decide) (by decide)⟩

/-- C25 as stated fails outside these ranges.  For `bytes = (2 ^ 53 + 1) * 16 - 8` the
quotient `2 ^ 53 + 1` is not a `double`; `std::ceil` returns `2 ^ 53`.  For
`bytes = 2 ^ 64 - 1` the sum `bytes + HEADER_SZ` wraps to 7 and `k = 0`.  For
`R = (2 ^ 32 - 1) * 16 - 8` the quotient is `2 ^ 32 - 1` and adding `1u` wraps the
block count to 0.  For `R = 2 ^ 64 - 1` the sum wraps to 7 and the block count is 1. -/
theorem allocBlocks_differs_from_floor_out_of_range :
    (allocBlocks 16 ((2 ^ 53 + 1) * 16 - 8) = 2 ^ 53 ∧
      ((2 ^ 53 + 1) * 16 - 8 + HEADER_SZ) / BLK_SZ 16 = 2 ^ 53 + 1) ∧
    (allocBlocks 16 (2 ^ 64 - 1) = 0 ∧ (2 ^ 64 - 1 + HEADER_SZ) / BLK_SZ 16 = 2 ^ 60) ∧
    (ctorBlocks 16 ((2 ^ 32 - 1) * 16 - 8) = some 0 ∧
      ((2 ^ 32 - 1) * 16 - 8 + HEADER_SZ) / 16 + 1 = 2 ^ 32) ∧
    (ctorBlocks 16 (2 ^ 64 - 1) = some 1 ∧ (2 ^ 64 - 1 + HEADER_SZ) / 16 + 1 = 2 ^ 60 + 1) := by
  refine ⟨⟨?_, by decide⟩, ⟨by decide, by decide⟩, ⟨by decide, by decide⟩,
    ⟨by decide, by decide⟩⟩
  have hq : ((2 ^ 53 + 1) * 16 - 8 + HEADER_SZ) % SIZE_MOD / BLK_SZ 16 = 2 ^ 53 + 1 := by
    decide
  have hlog : Nat.log2 (2 ^ 53 + 1) = 53 :=
    log2_of_range _ 53 (by decide) (by decide)
  unfold allocBlocks
  rw [hq]
  unfold stdCeil
  rw [if_neg (by decide), hlog]
  decide

/-! ## The tagged adapter -/

/-- A freshly built pool with at least two blocks has handed out nothing. -/
theorem bumpState_init (n : Nat) (hn : 2 ≤ n) : bumpState (SLPool.init n) n 0 := by
  obtain ⟨h1, h2, h3, h4, -, h6⟩ := init_post_state n hn
  exact ⟨h1, h2, Or.inl ⟨by omega, h6, by omega, h4⟩⟩

/-- One `Allocate` call in an allocation-only state: a request of `k >= 1` blocks that
fits returns the payload of block `used` and moves on to `used + k`; a request that does
not fit throws and leaves the state. -/
theorem bumpState_Allocate (B n used fuel bytes : Nat) (s : SLPool)
    (hb : bumpState s n used) (hk : 1 ≤ allocBlocks B bytes) :
    (used + allocBlocks B bytes ≤ n - 1 →
      ∃ st, Allocate B (fuel + 2) s bytes =
          some (AllocResult.address (payloadAddr B used) st) ∧
        bumpState st n (used + allocBlocks B bytes)) ∧
    (¬ used + allocBlocks B bytes ≤ n - 1 →
      Allocate B (fuel + 2) s bytes = some (AllocResult.bad_alloc s)) := by
  obtain ⟨hN, hs, hcase⟩ := hb
  unfold Allocate
  rw [hs]
  rcases hcase with ⟨hlt, hnext, hlen, hnull⟩ | ⟨heq, hnext⟩
  · rw [hnext]
    constructor
    · intro hfit
      simp only [allocLoop, hlen]
      split_ifs with h1 h2
      · refine ⟨_, rfl, ?_, ?_, Or.inr ⟨by omega, ?_⟩⟩
        · exact hN
        · simpa using hs
        · simp [hnull]
      · have hne1 : ¬ (n - 1 = used + allocBlocks B bytes) := by omega
        have hne2 : ¬ (used = used + allocBlocks B bytes) := by omega
        have hne3 : ¬ (used + allocBlocks B bytes = used) := by omega
        have hne4 : ¬ (used = n - 1) := by omega
        rw [allocSplit_of_ne s (n - 1) used _ hne1]
        refine ⟨_, rfl, ?_, ?_, Or.inl ⟨by omega, ?_, ?_, ?_⟩⟩
        · exact hN
        · simpa using hs
        · simp [hne1]
        · simp [hne3, hlen]
          omega
        · simp [hne4, hnull]
      · omega
    · intro hnofit
      have h1 : ¬ (n - 1 - used = allocBlocks B bytes) := by omega
      have h2 : ¬ (allocBlocks B bytes < n - 1 - used) := by omega
      simp only [allocLoop, hlen, h1, h2, if_false, hnull]
  · rw [hnext]
    constructor
    · intro hfit; omega
    · intro _
      simp only [allocLoop]

/-- An allocation-only run from a state with `used` blocks handed out: every call
returns, the `j`-th returned address is the payload of block `used` plus the block
counts of the earlier successful calls, and the final state has handed out `used` plus
all the block counts. -/
theorem bumpState_allocRuns (B n fuel : Nat) :
    ∀ (reqs : List Nat) (s : SLPool) (used : Nat), bumpState s n used →
      (∀ b ∈ reqs, 1 ≤ allocBlocks B b) →
      ∃ st rs, allocRuns B (fuel + 2) s reqs = some (st, rs) ∧
        bumpState st n (used + (rs.map Prod.snd).sum) ∧
        used + (rs.map Prod.snd).sum ≤ n - 1 ∧
        (∀ q ∈ rs, 1 ≤ q.2) ∧
        ∀ j q, rs[j]? = some q →
          q.1 = payloadAddr B (used + ((rs.take j).map Prod.snd).sum) := by
  intro reqs
  induction reqs with
  | nil =>
    intro s used hb _
    refine ⟨s, [], rfl, by simpa using hb, ?_, by simp, by simp⟩
    obtain ⟨-, -, hc⟩ := hb
    rcases hc with ⟨h, -⟩ | ⟨h, -⟩ <;> simp <;> omega
  | cons b rest ih =>
    intro s used hb hreq
    have hk : 1 ≤ allocBlocks B b := hreq b (List.mem_cons_self _ _)
    have hrest : ∀ c ∈ rest, 1 ≤ allocBlocks B c :=
      fun c hc => hreq c (List.mem_cons_of_mem _ hc)
    obtain ⟨hfit, hnofit⟩ := bumpState_Allocate B n used fuel b s hb hk
    by_cases hle : used + allocBlocks B b ≤ n - 1
    · obtain ⟨s1, hA, hb1⟩ := hfit hle
      obtain ⟨st, rs, hrun, hbst, htot, hpos, hheads⟩ := ih s1 _ hb1 hrest
      refine ⟨st, (payloadAddr B used, allocBlocks B b) :: rs, ?_, ?_, ?_, ?_, ?_⟩
      · simp only [allocRuns, hA, hrun, Option.map_some']
      · simpa [Nat.add_assoc] using hbst
      · simp only [List.map_cons, List.sum_cons]
        omega
      · intro q hq
        rcases List.mem_cons.mp hq with rfl | hq
        · exact hk
        · exact hpos q hq
      · intro j q hj
        cases j with
        | zero =>
          simp only [List.getElem?_cons_zero, Option.some.injEq] at hj
          subst hj
          simp
        | succ i =>
          simp only [List.getElem?_cons_succ] at hj
          have := hheads i q hj
          simp only [List.take_succ_cons, List.map_cons, List.sum_cons]
          rw [this]
          congr 1
          omega
    · have hA := hnofit hle
      obtain ⟨st, rs, hrun, hbst, htot, hpos, hheads⟩ := ih s used hb hrest
      exact ⟨st, rs, by simp only [allocRuns, hA, hrun], hbst, htot, hpos, hheads⟩

/-- The constructor returns the state `SLPool.init` of its block count. -/
theorem ctor_eq_init (B R : Nat) (s : SLPool) (h : SLPool.ctor B R = some s) :
    s = SLPool.init s.m_n_blocks := by
  unfold SLPool.ctor at h
  cases hc : ctorBlocks B R with
  | none => simp [hc] at h
  | some n =>
    simp only [hc] at h
    split_ifs at h with h0
    simp only [Option.some.injEq] at h
    subst h
    rfl

/-- The sum of the first `j + 1` entries is the sum of the first `j` plus entry `j`. -/
theorem sum_take_step (L : List Nat) (j k : Nat) (h : L[j]? = some k) :
    (L.take (j + 1)).sum = (L.take j).sum + k := by
  obtain ⟨hj, hk⟩ := List.getElem?_eq_some.mp h
  rw [List.sum_take_succ L j hj, hk]

/-- The sum of a leading part of a list of naturals is at most the sum of the list. -/
theorem sum_take_le (L : List Nat) (j : Nat) : (L.take j).sum ≤ L.sum := by
  have := List.sum_take_add_sum_drop L j
  omega

/-- C27 (allocation-only behaviour): on a freshly constructed pool with `N >= 2`, for
every sequence of `Allocate` calls with block counts `k >= 1` and fuel at least 2, every
call returns or throws; afterwards the free list holds at most one run, whose head is
the block after all reserved runs and lies below `N - 1`; the `j`-th returned address
is the payload of the block whose index is the sum of the block counts of the earlier
successful calls; the reserved runs are pairwise disjoint and end at or below block
`N - 1`. -/
theorem Allocate_only_bumps (B R fuel : Nat) (s : SLPool) (reqs : List Nat)
    (hc : SLPool.ctor B R = some s) (hN : 2 ≤ s.m_n_blocks)
    (hreq : ∀ b ∈ reqs, 1 ≤ allocBlocks B b) :
    ∃ st rs, allocRuns B (fuel + 2) s reqs = some (st, rs) ∧
      (∃ l, freeList st 2 (st.next st.m_sentinel) = some l ∧ l.length ≤ 1 ∧
        ∀ u ∈ l, u = (rs.map Prod.snd).sum ∧ u < s.m_n_blocks - 1) ∧
      (∀ j q, rs[j]? = some q →
        q.1 = payloadAddr B ((rs.take j).map Prod.snd).sum ∧ 1 ≤ q.2) ∧
      (∀ i j qi qj, i < j → rs[i]? = some qi → rs[j]? = some qj →
        ((rs.take i).map Prod.snd).sum + qi.2 ≤ ((rs.take j).map Prod.snd).sum) ∧
      (∀ j q, rs[j]? = some q →
        ((rs.take j).map Prod.snd).sum + q.2 ≤ s.m_n_blocks - 1) := by
  have hinit := ctor_eq_init B R s hc
  have hb0 : bumpState s s.m_n_blocks 0 := by
    rw [hinit]
    exact bumpState_init _ hN
  obtain ⟨st, rs, hrun, hbst, htot, hpos, hheads⟩ :=
    bumpState_allocRuns B s.m_n_blocks fuel reqs s 0 hb0 hreq
  simp only [Nat.zero_add] at hbst htot hheads
  have hstep : ∀ j q, rs[j]? = some q →
      ((rs.take (j + 1)).map Prod.snd).sum = ((rs.take j).map Prod.snd).sum + q.2 := by
    intro j q hj
    rw [List.map_take, List.map_take]
    apply sum_take_step
    rw [List.getElem?_map, hj]
    rfl
  refine ⟨st, rs, hrun, ?_, ?_, ?_, ?_⟩
  · obtain ⟨-, hs, hcase⟩ := hbst
    rw [hs]
    rcases hcase with ⟨hlt, hnext, -, hnull⟩ | ⟨-, hnext⟩
    · refine ⟨[(rs.map Prod.snd).sum], ?_, by simp, ?_⟩
      · simp [freeList, hnext, hnull]
      · intro u hu
        simp only [List.mem_singleton] at hu
        subst hu
        exact ⟨rfl, hlt⟩
    · exact ⟨[], by simp [freeList, hnext], by simp, by simp⟩
  · intro j q hj
    exact ⟨hheads j q hj, hpos q (List.getElem?_mem hj)⟩
  · intro i j qi qj hij hi hj
    rw [← hstep i qi hi, List.map_take, List.map_take]
    exact List.monotone_sum_take _ hij
  · intro j q hj
    rw [← hstep j q hj, List.map_take]
    exact le_trans (sum_take_le _ _) htot

/-- Witness of C27 on `SLPool<16>(56)`: three requests of 24 bytes; two are served, at
blocks 0 and 2, and the third throws. -/
theorem Allocate_only_bumps_witness :
    SLPool.ctor 16 56 = some (SLPool.init 5) ∧ 2 ≤ (SLPool.init 5).m_n_blocks ∧
    (∀ b ∈ [24, 24, 24], 1 ≤ allocBlocks 16 b) ∧
    ∃ st rs, allocRuns 16 (0 + 2) (SLPool.init 5) [24, 24, 24] = some (st, rs) ∧
      (∃ l, freeList st 2 (st.next st.m_sentinel) = some l ∧ l.length ≤ 1 ∧
        ∀ u ∈ l, u = (rs.map Prod.snd).sum ∧ u < (SLPool.init 5).m_n_blocks - 1) ∧
      (∀ j q, rs[j]? = some q →
        q.1 = payloadAddr 16 ((rs.take j).map Prod.snd).sum ∧ 1 ≤ q.2) ∧
      (∀ i j qi qj, i < j → rs[i]? = some qi → rs[j]? = some qj →
        ((rs.take i).map Prod.snd).sum + qi.2 ≤ ((rs.take j).map Prod.snd).sum) ∧
      (∀ j q, rs[j]? = some q →
        ((rs.take j).map Prod.snd).sum + q.2 ≤ (SLPool.init 5).m_n_blocks - 1) :=
  ⟨rfl, by decide, by decide,
    Allocate_only_bumps 16 56 0 (SLPool.init 5) [24, 24, 24] rfl (by decide) (by decide)⟩

/-! ## Lemmas on the split and on well-formed lists -/

/-- Read of `m_next` in the state after a split. -/
theorem splitState_next (s : SLPool) (pred curr k j : Nat) :
    (splitState s pred curr k).next j =
      if j = curr + k then s.next curr else if j = pred then Ptr.blk (curr + k)
      else s.next j := by
  unfold splitState
  simp

/-- Read of `m_length` in the state after a split. -/
theorem splitState_len (s : SLPool) (pred curr k j : Nat) :
    (splitState s pred curr k).len j =
      if j = curr then k else if j = curr + k then s.len curr - k else s.len j := by
  unfold splitState
  simp

/-- A segment is the same in two states that agree on the `m_next` of its nodes. -/
theorem listSeg_congr (s t : SLPool) :
    ∀ (l : List Nat) (p q : Ptr), (∀ j ∈ l, t.next j = s.next j) →
      listSeg s p l q → listSeg t p l q := by
  intro l
  induction l with
  | nil => intro p q _ h; exact h
  | cons i r ih =>
    intro p q hn h
    simp only [listSeg] at h ⊢
    refine ⟨h.1, ?_⟩
    rw [hn i (List.mem_cons_self _ _)]
    exact ih _ _ (fun j hj => hn j (List.mem_cons_of_mem _ hj)) h.2

/-- A returned address on a finite list: the list splits at the reserved node, the nodes
before it are too short, and the fuel covered the walk. -/
theorem allocLoop_decompose (B k : Nat) :
    ∀ (fuel : Nat) (s : SLPool) (p : Ptr) (slow a : Nat) (st : SLPool) (l : List Nat),
      allocLoop B k fuel s p slow = some (AllocResult.address a st) →
      listSeg s p l Ptr.null →
      ∃ l1 curr l2, l = l1 ++ curr :: l2 ∧ (∀ j ∈ l1, s.len j < k) ∧ k ≤ s.len curr ∧
        a = payloadAddr B curr ∧ l1.length < fuel ∧ listSeg s p l1 (Ptr.blk curr) := by
  intro fuel
  induction fuel with
  | zero => intro s p slow a st l h; simp [allocLoop] at h
  | succ f ih =>
    intro s p slow a st l h hl
    cases p with
    | null => simp [allocLoop] at h
    | blk i =>
      cases l with
      | nil => simp [listSeg] at hl
      | cons i2 t =>
        simp only [listSeg, Ptr.blk.injEq] at hl
        obtain ⟨rfl, ht⟩ := hl
        simp only [allocLoop] at h
        split_ifs at h with h1 h2
        · simp only [Option.some.injEq, AllocResult.address.injEq] at h
          exact ⟨[], i, t, rfl, by simp, by omega, h.1.symm, by simp, rfl⟩
        · cases hsp : allocSplit s slow i k with
          | none => simp [hsp] at h
          | some s4 =>
            simp only [hsp, Option.some.injEq, AllocResult.address.injEq] at h
            exact ⟨[], i, t, rfl, by simp, by omega, h.1.symm, by simp, rfl⟩
        · obtain ⟨l1, c, l2, hl12, hsmall, hk, ha, hlen, hseg⟩ := ih s _ i a st t h ht
          refine ⟨i :: l1, c, l2, by simp [hl12], ?_, hk, ha, by simp; omega, ?_⟩
          · intro j hj
            rcases List.mem_cons.mp hj with rfl | hj
            · omega
            · exact hsmall j hj
          · exact ⟨rfl, hseg⟩

/-- The split branch on the loop, with the state it leaves, for a predecessor that is
neither `curr` nor the block `curr + k`. -/
theorem allocLoop_split_state (B k : Nat) (s : SLPool) (curr : Nat)
    (hbig : k < s.len curr) :
    ∀ (l1 : List Nat) (p : Ptr) (slow fuel : Nat),
      listSeg s p l1 (Ptr.blk curr) → (∀ j ∈ l1, s.len j < k) →
      l1.getLastD slow ≠ curr → l1.getLastD slow ≠ curr + k → l1.length < fuel →
      allocLoop B k fuel s p slow =
        some (AllocResult.address (payloadAddr B curr)
          (splitState s (l1.getLastD slow) curr k)) := by
  intro l1
  induction l1 with
  | nil =>
    intro p slow fuel hseg _ hp1 hp2 hf
    simp only [listSeg] at hseg
    subst hseg
    simp only [List.getLastD_nil] at hp1 hp2 ⊢
    obtain ⟨f, rfl⟩ : ∃ f, fuel = f + 1 := ⟨fuel - 1, by simp at hf; omega⟩
    have h1 : ¬ s.len curr = k := by omega
    have h2 : ¬ curr = slow := fun e => hp1 e.symm
    simp only [allocLoop, h1, if_false, hbig, if_true, allocSplit_of_ne s slow curr k hp2,
      splitState, setNext_next, h2]
  | cons i l ih =>
    intro p slow fuel hseg hsmall hp1 hp2 hf
    simp only [listSeg] at hseg
    obtain ⟨rfl, hseg⟩ := hseg
    obtain ⟨f, rfl⟩ : ∃ f, fuel = f + 1 := ⟨fuel - 1, by simp at hf; omega⟩
    have hi : s.len i < k := hsmall i (List.mem_cons_self _ _)
    have h1 : ¬ s.len i = k := by omega
    have h2 : ¬ k < s.len i := by omega
    simp only [List.getLastD_cons] at hp1 hp2 ⊢
    simp only [allocLoop, h1, h2, if_false]
    have hlen : l.length < f := by simp at hf; omega
    exact ih (s.next i) i f hseg (fun j hj => hsmall j (List.mem_cons_of_mem _ hj)) hp1 hp2
      hlen

/-- The predecessor of a node of a finite list is the sentinel or a node before it. -/
theorem getLastD_mem (l1 : List Nat) (sent : Nat) :
    l1.getLastD sent = sent ∧ l1 = [] ∨ l1.getLastD sent ∈ l1 := by
  rcases List.eq_nil_or_concat l1 with rfl | ⟨l0, pred, rfl⟩
  · exact Or.inl ⟨rfl, rfl⟩
  · right
    simp [List.concat_eq_append, List.getLastD_concat]

/-- The sentinel is not a node of a list that starts at its `m_next` and ends. -/
theorem listSeg_sentinel_not_mem (s : SLPool) (l : List Nat)
    (h : listSeg s (s.next s.m_sentinel) l Ptr.null) : s.m_sentinel ∉ l :=
  listSeg_tail_not_mem s s.m_sentinel l h

/-- After a split whose remainder block is neither on the list nor the sentinel, the
walk from the new head visits the old list with `curr` replaced by `curr + k`. -/
theorem listSeg_split (s : SLPool) (curr k : Nat) (l1 l2 : List Nat)
    (h : listSeg s (s.next s.m_sentinel) (l1 ++ curr :: l2) Ptr.null)
    (hc : curr + k ∉ l1 ++ curr :: l2) (hs : s.m_sentinel ≠ curr + k) :
    listSeg (splitState s (l1.getLastD s.m_sentinel) curr k)
      ((splitState s (l1.getLastD s.m_sentinel) curr k).next s.m_sentinel)
      (l1 ++ (curr + k) :: l2) Ptr.null := by
  have hnd := listSeg_nodup s _ _ h
  have hsent := listSeg_sentinel_not_mem s _ h
  obtain ⟨r, hl1, hr⟩ := (listSeg_append s l1 (curr :: l2) _ _).mp h
  simp only [listSeg] at hr
  obtain ⟨rfl, hl2⟩ := hr
  have hc2 : curr + k ∉ l2 := fun e => hc (by simp [e])
  have hc1 : curr + k ∉ l1 := fun e => hc (by simp [e])
  rcases List.eq_nil_or_concat l1 with rfl | ⟨l0, pred, rfl⟩
  · simp only [List.getLastD_nil, List.nil_append, splitState_next, if_neg hs, if_true,
      listSeg, true_and]
    refine listSeg_congr s _ l2 _ _ ?_ hl2
    intro j hj
    have hj1 : ¬ j = curr + k := fun e => hc2 (e ▸ hj)
    have hj2 : ¬ j = s.m_sentinel := fun e => hsent (by simp [← e, hj])
    rw [splitState_next, if_neg hj1, if_neg hj2]
  · simp only [List.concat_eq_append] at hnd hsent hl1 hc1 ⊢
    simp only [List.getLastD_concat]
    have hps : ¬ s.m_sentinel = pred := fun e => hsent (by simp [e])
    rw [splitState_next, if_neg hs, if_neg hps]
    obtain ⟨r2, hl0, hp⟩ := (listSeg_append s l0 [pred] _ _).mp hl1
    simp only [listSeg] at hp
    obtain ⟨rfl, -⟩ := hp
    have hnd2 : (l0 ++ pred :: curr :: l2).Nodup := by simpa using hnd
    have hp0 : pred ∉ l0 := by
      intro hm
      exact (List.nodup_append.mp hnd2).2.2 hm (List.mem_cons_self _ _)
    have hp2 : pred ∉ l2 := by
      intro hm
      have := (List.nodup_cons.mp (List.nodup_append.mp hnd2).2.1).1
      exact this (List.mem_cons_of_mem _ hm)
    have hpc : ¬ pred = curr + k := fun e => hc1 (by simp [← e])
    rw [List.append_assoc]
    refine (listSeg_append _ l0 ([pred] ++ (curr + k) :: l2) _ _).mpr ⟨Ptr.blk pred, ?_, ?_⟩
    · refine listSeg_congr s _ l0 _ _ ?_ hl0
      intro j hj
      have hj1 : ¬ j = curr + k := fun e => hc1 (by simp [← e, hj])
      have hj2 : ¬ j = pred := fun e => hp0 (e ▸ hj)
      rw [splitState_next, if_neg hj1, if_neg hj2]
    · simp only [List.singleton_append, listSeg, splitState_next, if_neg hpc, if_true,
        true_and]
      refine listSeg_congr s _ l2 _ _ ?_ hl2
      intro j hj
      have hj1 : ¬ j = curr + k := fun e => hc2 (e ▸ hj)
      have hj2 : ¬ j = pred := fun e => hp2 (e ▸ hj)
      rw [splitState_next, if_neg hj1, if_neg hj2]

/-- The sentinel of the state after a split. -/
theorem splitState_m_sentinel (s : SLPool) (pred curr k : Nat) :
    (splitState s pred curr k).m_sentinel = s.m_sentinel := rfl

/-- The block count of the state after a split. -/
theorem splitState_m_n_blocks (s : SLPool) (pred curr k : Nat) :
    (splitState s pred curr k).m_n_blocks = s.m_n_blocks := rfl

/-- C24 (`Allocate` preserves well-formedness): from a state of a pool, whose sentinel
is the block `N - 1` the constructor bound it to, and whose free list `l` is finite,
strictly address-sorted, made of runs of at least one block that lie within blocks
`0 .. N - 2` and neither overlap nor touch, a request of `k ≥ 1` blocks that returns
an address leaves a state with the same sentinel and block count whose free list has
the same properties; the address is the payload of the head `curr` of a run of the old
list, whose length field now holds `k`, and the reserved run `[curr, curr + k)` is
disjoint from every run of the new list. -/
theorem Allocate_preserves_wellFormed (B fuel : Nat) (s : SLPool) (bytes : Nat)
    (l : List Nat) (p : Nat) (st : SLPool)
    (hs : s.m_sentinel = s.m_n_blocks - 1)
    (hwf : wellFormed s l) (hk : 1 ≤ allocBlocks B bytes)
    (hA : Allocate B fuel s bytes = some (AllocResult.address p st)) :
    st.m_n_blocks = s.m_n_blocks ∧ st.m_sentinel = s.m_sentinel ∧
    ∃ l1 curr, wellFormed st l1 ∧ curr ∈ l ∧ p = payloadAddr B curr ∧
      st.len curr = allocBlocks B bytes ∧
      ∀ j ∈ l1, curr + allocBlocks B bytes ≤ j ∨ j + st.len j ≤ curr := by
  obtain ⟨hseg, hpw, hb⟩ := hwf
  unfold Allocate at hA
  obtain ⟨l1, curr, l2, rfl, hsmall, hkc, hp, hlen, hseg1⟩ :=
    allocLoop_decompose B _ fuel s _ _ p st l hA hseg
  generalize allocBlocks B bytes = k at *
  have hnd := listSeg_nodup s _ _ hseg
  have hsent := listSeg_sentinel_not_mem s _ hseg
  obtain ⟨P1, Pc, H⟩ := List.pairwise_append.mp hpw
  obtain ⟨hc2, P2⟩ := List.pairwise_cons.mp Pc
  have hcm : curr ∈ l1 ++ curr :: l2 := by simp
  have hpred : l1.getLastD s.m_sentinel ≠ curr := by
    intro e
    rcases getLastD_mem l1 s.m_sentinel with ⟨h1, -⟩ | h1
    · exact hsent (by rw [← h1, e]; exact hcm)
    · have := (H _ h1 curr (List.mem_cons_self _ _)).1
      omega
  have hc1 : ∀ a ∈ l1, a ≠ curr := by
    intro a ha e
    have := (H a ha curr (List.mem_cons_self _ _)).1
    omega
  have hc3 : ∀ b ∈ l2, b ≠ curr := by
    intro b hb2 e
    have := (hc2 b hb2).1
    omega
  by_cases hex : s.len curr = k
  · rw [allocLoop_exact B k s curr hex l1 _ s.m_sentinel fuel hseg1 hsmall hlen] at hA
    simp only [Option.some.injEq, AllocResult.address.injEq] at hA
    obtain ⟨-, rfl⟩ := hA
    refine ⟨rfl, rfl, l1 ++ l2, curr, ⟨?_, ?_, ?_⟩, hcm, hp, by simpa using hex, ?_⟩
    · exact listSeg_unlink s s.m_sentinel curr l1 l2 hseg
    · simp only [setNext_len]
      exact List.pairwise_append.mpr
        ⟨P1, P2, fun a ha b hb2 => H a ha b (List.mem_cons_of_mem _ hb2)⟩
    · intro a ha
      simp only [setNext_len]
      rcases List.mem_append.mp ha with h1 | h1
      · exact hb a (by simp [h1])
      · exact hb a (by simp [h1])
    · intro j hj
      simp only [setNext_len]
      rcases List.mem_append.mp hj with h1 | h1
      · right
        have := (H j h1 curr (List.mem_cons_self _ _)).2
        omega
      · left
        have := (hc2 j h1).2
        omega
  · have hbig : k < s.len curr := by omega
    have hbc := hb curr hcm
    have hsk : s.m_sentinel ≠ curr + k := by omega
    have hpk : l1.getLastD s.m_sentinel ≠ curr + k := by
      intro e
      rcases getLastD_mem l1 s.m_sentinel with ⟨h1, -⟩ | h1
      · exact hsk (h1.symm.trans e)
      · have := (H _ h1 curr (List.mem_cons_self _ _)).1
        omega
    rw [allocLoop_split_state B k s curr hbig l1 _ s.m_sentinel fuel hseg1 hsmall hpred
      hpk hlen] at hA
    simp only [Option.some.injEq, AllocResult.address.injEq] at hA
    obtain ⟨-, rfl⟩ := hA
    have hr1 : ∀ a ∈ l1, a ≠ curr + k := by
      intro a ha e
      have := (H a ha curr (List.mem_cons_self _ _)).1
      omega
    have hr2 : ∀ b ∈ l2, b ≠ curr + k := by
      intro b hb2 e
      have := (hc2 b hb2).2
      omega
    have hcn : curr + k ∉ l1 ++ curr :: l2 := by
      intro hm
      rcases List.mem_append.mp hm with h1 | h1
      · exact hr1 _ h1 rfl
      · rcases List.mem_cons.mp h1 with h2 | h2
        · omega
        · exact hr2 _ h2 rfl
    have hck : ¬ curr + k = curr := by omega
    have hlc : (splitState s (l1.getLastD s.m_sentinel) curr k).len curr = k := by
      rw [splitState_len, if_pos rfl]
    have hl1 : ∀ a ∈ l1, (splitState s (l1.getLastD s.m_sentinel) curr k).len a
        = s.len a := by
      intro a ha
      rw [splitState_len, if_neg (hc1 a ha), if_neg (hr1 a ha)]
    have hl2 : ∀ b ∈ l2, (splitState s (l1.getLastD s.m_sentinel) curr k).len b
        = s.len b := by
      intro b hb2
      rw [splitState_len, if_neg (hc3 b hb2), if_neg (hr2 b hb2)]
    have hlr : (splitState s (l1.getLastD s.m_sentinel) curr k).len (curr + k)
        = s.len curr - k := by
      rw [splitState_len, if_neg hck, if_pos rfl]
    · refine ⟨rfl, rfl, l1 ++ (curr + k) :: l2, curr, ⟨?_, ?_, ?_⟩, hcm, hp, hlc, ?_⟩
      · exact listSeg_split s curr k l1 l2 hseg hcn hsk
      · refine List.pairwise_append.mpr ⟨?_, List.pairwise_cons.mpr ⟨?_, ?_⟩, ?_⟩
        · refine List.Pairwise.imp_of_mem ?_ P1
          intro a b ha _ hab
          rw [hl1 a ha]
          exact hab
        · intro b hb2
          rw [hlr]
          have := hc2 b hb2
          omega
        · refine List.Pairwise.imp_of_mem ?_ P2
          intro a b ha _ hab
          rw [hl2 a ha]
          exact hab
        · intro a ha b hb2
          rw [hl1 a ha]
          rcases List.mem_cons.mp hb2 with rfl | h2
          · have := H a ha curr (List.mem_cons_self _ _)
            omega
          · exact H a ha b (List.mem_cons_of_mem _ h2)
      · intro a ha
        rw [splitState_m_n_blocks]
        rcases List.mem_append.mp ha with h1 | h1
        · rw [hl1 a h1]
          exact hb a (by simp [h1])
        · rcases List.mem_cons.mp h1 with rfl | h2
          · rw [hlr]
            omega
          · rw [hl2 a h2]
            exact hb a (by simp [h2])
      · intro j hj
        rcases List.mem_append.mp hj with h1 | h1
        · right
          rw [hl1 j h1]
          have := (H j h1 curr (List.mem_cons_self _ _)).2
          omega
        · left
          rcases List.mem_cons.mp h1 with rfl | h2
          · omega
          · have := (hc2 j h2).2
            omega

/-- Witness for C24 (pool of five blocks from the constructor, request of 24 bytes):
the list `[0]` with one run of four blocks becomes `[2]`, and the reserved run is
blocks 0 and 1. -/
theorem Allocate_preserves_wellFormed_witness :
    (SLPool.init 5).m_sentinel = (SLPool.init 5).m_n_blocks - 1 ∧
    wellFormed (SLPool.init 5) [0] ∧ 1 ≤ allocBlocks 16 24 ∧
    ∃ p st, Allocate 16 1 (SLPool.init 5) 24 = some (AllocResult.address p st) ∧
      st.m_n_blocks = (SLPool.init 5).m_n_blocks ∧
      st.m_sentinel = (SLPool.init 5).m_sentinel ∧
      ∃ l1 curr, wellFormed st l1 ∧ curr ∈ [0] ∧ p = payloadAddr 16 curr ∧
        st.len curr = allocBlocks 16 24 ∧
        ∀ j ∈ l1, curr + allocBlocks 16 24 ≤ j ∨ j + st.len j ≤ curr := by
  have hwf : wellFormed (SLPool.init 5) [0] := by
    refine ⟨⟨rfl, rfl⟩, List.pairwise_singleton _ _, ?_⟩
    intro a ha
    rw [List.mem_singleton.mp ha]
    decide
  have hk : 1 ≤ allocBlocks 16 24 := by decide
  exact ⟨rfl, hwf, hk, _, _, rfl,
    Allocate_preserves_wellFormed 16 1 (SLPool.init 5) 24 [0] _ _ rfl hwf hk rfl⟩

/-! ## Conservation of free blocks -/

/-- The lengths of the nodes of a list add up to the same in two states that agree on
them. -/
theorem sum_len_congr (s t : SLPool) (l : List Nat) (h : ∀ j ∈ l, t.len j = s.len j) :
    (l.map t.len).sum = (l.map s.len).sum := by
  rw [List.map_congr_left h]

/-- `Free` on a finite non-empty list `f :: t`, for a released head below the sentinel
that is not on the list and lengths that do not overflow: the new list is finite and
its lengths add up to the old sum plus the length of the released run. -/
theorem Free_sum (B : Nat) (s : SLPool) (ptr h f : Nat) (t : List Nat)
    (hh : headOf B ptr = some h) (hlt : h < s.m_sentinel)
    (hl : listSeg s (s.next s.m_sentinel) (f :: t) Ptr.null) (hnl : h ∉ f :: t)
    (hov : ((f :: t).map s.len).sum + s.len h < SIZE_MOD) :
    ∃ st l1, Free B s ptr = some st ∧ listSeg st (st.next st.m_sentinel) l1 Ptr.null ∧
      (l1.map st.len).sum = ((f :: t).map s.len).sum + s.len h := by
  have hnd := listSeg_nodup s _ _ hl
  have hsent := listSeg_sentinel_not_mem s _ hl
  simp only [listSeg] at hl
  obtain ⟨hf, ht⟩ := hl
  rw [Free_nonempty B s ptr h f hh hlt hf]
  have hft : f ∉ t := (List.nodup_cons.mp hnd).1
  have hhf : ¬ h = f := fun e => hnl (by simp [e])
  have hfh : ¬ f = h := fun e => hhf e.symm
  have hht : h ∉ t := fun e => hnl (by simp [e])
  have hsf : ¬ s.m_sentinel = f := fun e => hsent (by simp [e])
  have hsh : ¬ s.m_sentinel = h := by omega
  simp only [List.map_cons, List.sum_cons] at hov ⊢
  unfold freeLink
  cases t with
  | nil =>
    simp only [listSeg] at ht
    have hR : ptrdiffEq Ptr.null (Ptr.blk h) (s.len h) = false := by
      simp [ptrdiffEq, ptrdiff]
    simp only [List.map_nil, List.sum_nil, Nat.add_zero] at hov ⊢
    simp only [ht, hR, Bool.and_false, Bool.false_eq_true, if_false]
    split_ifs
    · refine ⟨_, [f], rfl, ⟨?_, ?_⟩, ?_⟩
      · simp [hsf, hf]
      · simp [listSeg]
      · simp
        exact Nat.mod_eq_of_lt hov
    · refine ⟨_, [f, h], rfl, ⟨?_, ?_, ?_⟩, ?_⟩
      · simp [hsf, hsh, hf]
      · simp [hfh]
      · simp [hhf, listSeg]
      · simp [hhf, hfh]
  | cons q r =>
    simp only [listSeg] at ht
    obtain ⟨hq, hr⟩ := ht
    have hnd2 := List.nodup_cons.mp (List.nodup_cons.mp hnd).2
    have hqr : q ∉ r := hnd2.1
    have hqf : ¬ q = f := fun e => hft (by simp [e])
    have hqh : ¬ q = h := fun e => hht (by simp [e])
    have hfr : f ∉ r := fun e => hft (List.mem_cons_of_mem _ e)
    have hhr : h ∉ r := fun e => hht (List.mem_cons_of_mem _ e)
    simp only [List.map_cons, List.sum_cons] at hov ⊢
    simp only [hq, Ptr.deref]
    split_ifs
    · refine ⟨_, f :: r, rfl, ⟨?_, ?_⟩, ?_⟩
      · simp [hsf, hf]
      · refine listSeg_congr s _ r _ _ ?_ (by simpa using hr)
        intro j hj
        have hjf : ¬ j = f := fun e => hfr (e ▸ hj)
        simp [hjf]
      · simp only [List.map_cons, List.sum_cons]
        rw [sum_len_congr s _ r (fun j hj => by
          have hjf : ¬ j = f := fun e => hfr (e ▸ hj)
          simp [hjf])]
        simp
        rw [Nat.mod_eq_of_lt (by omega)]
        omega
    · refine ⟨_, f :: q :: r, rfl, ⟨?_, ?_, ?_⟩, ?_⟩
      · simp [hsf, hf]
      · simp [hq]
      · refine listSeg_congr s _ r _ _ ?_ (by simpa [hqf] using hr)
        intro j hj
        have hjf : ¬ j = f := fun e => hfr (e ▸ hj)
        simp [hjf]
      · simp only [List.map_cons, List.sum_cons]
        rw [sum_len_congr s _ r (fun j hj => by
          have hjf : ¬ j = f := fun e => hfr (e ▸ hj)
          simp [hjf])]
        simp [hqf]
        rw [Nat.mod_eq_of_lt (by omega)]
        omega
    · refine ⟨_, f :: h :: r, rfl, ⟨?_, ?_, ?_⟩, ?_⟩
      · simp [hsf, hsh, hf]
      · simp [hfh]
      · refine listSeg_congr s _ r _ _ ?_ (by simpa [hqf] using hr)
        intro j hj
        have hjf : ¬ j = f := fun e => hfr (e ▸ hj)
        have hjh : ¬ j = h := fun e => hhr (e ▸ hj)
        simp [hjf, hjh]
      · simp only [List.map_cons, List.sum_cons]
        rw [sum_len_congr s _ r (fun j hj => by
          have hjh : ¬ j = h := fun e => hhr (e ▸ hj)
          simp [hjh])]
        simp [hfh]
        rw [Nat.mod_eq_of_lt (by omega)]
        omega
    · refine ⟨_, f :: h :: q :: r, rfl, ⟨?_, ?_, ?_, ?_⟩, ?_⟩
      · simp [hsf, hsh, hf]
      · simp [hfh]
      · simp [hhf, hq]
      · refine listSeg_congr s _ r _ _ ?_ (by simpa [hqf, hqh] using hr)
        intro j hj
        have hjf : ¬ j = f := fun e => hfr (e ▸ hj)
        have hjh : ¬ j = h := fun e => hhr (e ▸ hj)
        simp [hjf, hjh]
      · simp only [List.map_cons, List.sum_cons]
        rw [sum_len_congr s _ r (fun j hj => by simp)]
        simp
        omega

/-- A request on a finite list that returns an address, where the remainder block of
a split of the first fitting run is neither on the list nor the sentinel: the new list
is finite and its lengths add up to the old sum less `k`. -/
theorem Allocate_sum (B fuel : Nat) (s : SLPool) (bytes : Nat) (l : List Nat) (p : Nat)
    (st : SLPool) (hl : listSeg s (s.next s.m_sentinel) l Ptr.null)
    (hrem : ∀ l1 c l2, l = l1 ++ c :: l2 → (∀ j ∈ l1, s.len j < allocBlocks B bytes) →
      allocBlocks B bytes < s.len c →
      c + allocBlocks B bytes ∉ l ∧ c + allocBlocks B bytes ≠ s.m_sentinel)
    (hA : Allocate B fuel s bytes = some (AllocResult.address p st)) :
    ∃ l1, listSeg st (st.next st.m_sentinel) l1 Ptr.null ∧
      (l1.map st.len).sum + allocBlocks B bytes = (l.map s.len).sum := by
  unfold Allocate at hA
  obtain ⟨l1, curr, l2, rfl, hsmall, hkc, -, hlen, hseg1⟩ :=
    allocLoop_decompose B _ fuel s _ _ p st l hA hl
  have hrem2 := hrem l1 curr l2 rfl hsmall
  generalize allocBlocks B bytes = k at *
  have hnd := listSeg_nodup s _ _ hl
  have hsent := listSeg_sentinel_not_mem s _ hl
  have hcm : curr ∈ l1 ++ curr :: l2 := by simp
  have hdis := (List.nodup_append.mp hnd).2.2
  have hc1 : ∀ a ∈ l1, a ≠ curr := by
    intro a ha e
    exact hdis ha (e ▸ List.mem_cons_self _ _)
  have hc3 : ∀ b ∈ l2, b ≠ curr := by
    intro b hb2 e
    exact (List.nodup_cons.mp (List.nodup_append.mp hnd).2.1).1 (e ▸ hb2)
  have hpred : l1.getLastD s.m_sentinel ≠ curr := by
    intro e
    rcases getLastD_mem l1 s.m_sentinel with ⟨h1, -⟩ | h1
    · exact hsent (by rw [← h1, e]; exact hcm)
    · exact hc1 _ h1 e
  by_cases hex : s.len curr = k
  · rw [allocLoop_exact B k s curr hex l1 _ s.m_sentinel fuel hseg1 hsmall hlen] at hA
    simp only [Option.some.injEq, AllocResult.address.injEq] at hA
    obtain ⟨-, rfl⟩ := hA
    refine ⟨l1 ++ l2, listSeg_unlink s s.m_sentinel curr l1 l2 hl, ?_⟩
    simp only [List.map_append, List.sum_append, List.map_cons, List.sum_cons]
    rw [sum_len_congr s _ l1 (fun a _ => by simp), sum_len_congr s _ l2 (fun a _ => by simp)]
    omega
  · have hbig : k < s.len curr := by omega
    obtain ⟨hcn, hs⟩ := hrem2 hbig
    have hr1 : ∀ a ∈ l1, a ≠ curr + k := fun a ha e => hcn (by simp [← e, ha])
    have hr2 : ∀ b ∈ l2, b ≠ curr + k := fun b hb2 e => hcn (by simp [← e, hb2])
    have hck : ¬ curr + k = curr := fun e => hcn (by simp [e])
    have hpk : l1.getLastD s.m_sentinel ≠ curr + k := by
      intro e
      rcases getLastD_mem l1 s.m_sentinel with ⟨h1, -⟩ | h1
      · exact hs (e.symm.trans h1)
      · exact hr1 _ h1 e
    rw [allocLoop_split_state B k s curr hbig l1 _ s.m_sentinel fuel hseg1 hsmall hpred
      hpk hlen] at hA
    simp only [Option.some.injEq, AllocResult.address.injEq] at hA
    obtain ⟨-, rfl⟩ := hA
    refine ⟨l1 ++ (curr + k) :: l2, listSeg_split s curr k l1 l2 hl hcn (Ne.symm hs), ?_⟩
    simp only [List.map_append, List.sum_append, List.map_cons, List.sum_cons]
    rw [sum_len_congr s _ l1 (fun a ha => by
        rw [splitState_len, if_neg (hc1 a ha), if_neg (hr1 a ha)]),
      sum_len_congr s _ l2 (fun b hb2 => by
        rw [splitState_len, if_neg (hc3 b hb2), if_neg (hr2 b hb2)]),
      splitState_len, if_neg hck, if_pos rfl]
    omega

/-- C26 (free-block conservation), as amended: let the free list `l` be finite.  For a
released head `h` below the sentinel that is not on the list, with the list not empty
and the lengths of the list and of `h` adding up to less than `2 ^ 64`, `Free` gives a
state with a finite free list whose lengths add up to the old sum plus the length of
`h`, in every branch of the coalescing chain.  For a request of `k ≥ 1` blocks that
returns an address, where, if the first fitting run `c` is longer than `k`, the block
`c + k` is neither on the list nor the sentinel, `Allocate` gives a state with a finite
free list whose lengths add up to the old sum less `k`. -/
theorem free_blocks_conserved (B : Nat) (s : SLPool) (l : List Nat)
    (hl : listSeg s (s.next s.m_sentinel) l Ptr.null) :
    (∀ ptr h, headOf B ptr = some h → h < s.m_sentinel → l ≠ [] → h ∉ l →
      (l.map s.len).sum + s.len h < SIZE_MOD →
      ∃ st l1, Free B s ptr = some st ∧ listSeg st (st.next st.m_sentinel) l1 Ptr.null ∧
        (l1.map st.len).sum = (l.map s.len).sum + s.len h) ∧
    (∀ fuel bytes p st, 1 ≤ allocBlocks B bytes →
      (∀ l1 c l2, l = l1 ++ c :: l2 → (∀ j ∈ l1, s.len j < allocBlocks B bytes) →
        allocBlocks B bytes < s.len c →
        c + allocBlocks B bytes ∉ l ∧ c + allocBlocks B bytes ≠ s.m_sentinel) →
      Allocate B fuel s bytes = some (AllocResult.address p st) →
      ∃ l1, listSeg st (st.next st.m_sentinel) l1 Ptr.null ∧
        (l1.map st.len).sum + allocBlocks B bytes = (l.map s.len).sum) := by
  constructor
  · intro ptr h hh hlt hne hnl hov
    cases l with
    | nil => exact absurd rfl hne
    | cons f t => exact Free_sum B s ptr h f t hh hlt hl hnl hov
  · intro fuel bytes p st _ hrem hA
    exact Allocate_sum B fuel s bytes l p st hl hrem hA

/-- Witness for C26 on `SLPool<16>(56)` after `Allocate(24)`: the free list is the run
of block 2, two blocks long.  `Free(8)` releases block 0 of length 2 and the lengths of
the new list add up to 4; `Allocate(8)` reserves one block and the lengths of the new
list add up to 1. -/
theorem free_blocks_conserved_witness :
    listSeg poolAfterAllocate (poolAfterAllocate.next poolAfterAllocate.m_sentinel) [2]
      Ptr.null ∧
    (∃ st l1, Free 16 poolAfterAllocate 8 = some st ∧
      listSeg st (st.next st.m_sentinel) l1 Ptr.null ∧
      (l1.map st.len).sum = ([2].map poolAfterAllocate.len).sum + poolAfterAllocate.len 0) ∧
    ([2].map poolAfterAllocate.len).sum + poolAfterAllocate.len 0 = 4 ∧
    (∃ p st l1, Allocate 16 1 poolAfterAllocate 8 = some (AllocResult.address p st) ∧
      listSeg st (st.next st.m_sentinel) l1 Ptr.null ∧
      (l1.map st.len).sum + allocBlocks 16 8 = ([2].map poolAfterAllocate.len).sum) ∧
    allocBlocks 16 8 = 1 ∧ ([2].map poolAfterAllocate.len).sum = 2 := by
  have hl : listSeg poolAfterAllocate (poolAfterAllocate.next poolAfterAllocate.m_sentinel)
      [2] Ptr.null := ⟨rfl, rfl⟩
  have hrem : ∀ l1 c l2, [2] = l1 ++ c :: l2 →
      (∀ j ∈ l1, poolAfterAllocate.len j < allocBlocks 16 8) →
      allocBlocks 16 8 < poolAfterAllocate.len c →
      c + allocBlocks 16 8 ∉ [2] ∧ c + allocBlocks 16 8 ≠ poolAfterAllocate.m_sentinel := by
    intro l1 c l2 h _ _
    have hc : c ∈ [2] := by
      rw [h]
      simp
    rw [List.mem_singleton.mp hc]
    decide
  refine ⟨hl, ?_, by decide, ?_, by decide, by decide⟩
  · exact (free_blocks_conserved 16 poolAfterAllocate [2] hl).1 8 0 rfl (by decide)
      (by simp) (by simp) (by decide)
  · obtain ⟨l1, h1, h2⟩ := (free_blocks_conserved 16 poolAfterAllocate [2] hl).2 1 8
      (payloadAddr 16 2)
      (splitState poolAfterAllocate poolAfterAllocate.m_sentinel 2 (allocBlocks 16 8))
      (by decide) hrem rfl
    exact ⟨_, _, l1, rfl, h1, h2⟩

/-- C26 as stated fails in three ways.  Overflow: in `poolHugeLength` the free list is
the run of block 1 with length `2 ^ 64 - 1` and block 0 is reserved with length 2;
after `Free(8)` the list is block 1 with length 1, not `2 ^ 64 + 1`.  Remainder at the
sentinel: in `poolRunIntoSentinel` the sentinel is block 2 and the free list is block 0
of length 0 then block 1 of length 2; `Allocate(8)` has `k = 1`, passes block 0 and
splits block 1 with predecessor block 0: the remainder header is written into the
sentinel, whose next becomes the old next of block 1, null; the call returns the
payload of block 1 and the list is empty afterwards, its lengths adding up to 0 and
not to `2 - 1`.  Remainder on the list: in `poolOverlappingRuns` the free list is
block 0 of length 3 then block 1 of length 2; `Allocate(8)` has `k = 1`, and afterwards
block 1 links to itself, so the walk from the sentinel never ends. -/
theorem free_blocks_not_conserved :
    (listSeg poolHugeLength (poolHugeLength.next poolHugeLength.m_sentinel) [1] Ptr.null ∧
      headOf 16 8 = some 0 ∧ 0 ∉ [1] ∧ 0 < poolHugeLength.m_sentinel ∧
      ([1].map poolHugeLength.len).sum + poolHugeLength.len 0 = 2 ^ 64 + 1 ∧
      ∃ st, Free 16 poolHugeLength 8 = some st ∧
        listSeg st (st.next st.m_sentinel) [1] Ptr.null ∧ ([1].map st.len).sum = 1) ∧
    (listSeg poolRunIntoSentinel
        (poolRunIntoSentinel.next poolRunIntoSentinel.m_sentinel) [0, 1] Ptr.null ∧
      poolRunIntoSentinel.m_sentinel = 1 + 1 ∧
      allocBlocks 16 8 = 1 ∧ ([0, 1].map poolRunIntoSentinel.len).sum = 2 ∧
      ∃ st, Allocate 16 2 poolRunIntoSentinel 8 =
          some (AllocResult.address (payloadAddr 16 1) st) ∧
        listSeg st (st.next st.m_sentinel) [] Ptr.null ∧
        (([] : List Nat).map st.len).sum = 0) ∧
    (listSeg poolOverlappingRuns
        (poolOverlappingRuns.next poolOverlappingRuns.m_sentinel) [0, 1] Ptr.null ∧
      allocBlocks 16 8 = 1 ∧
      ∃ p st, Allocate 16 1 poolOverlappingRuns 8 = some (AllocResult.address p st) ∧
        st.next st.m_sentinel = Ptr.blk 1 ∧ st.next 1 = Ptr.blk 1 ∧
        ∀ fuel, freeList st fuel (st.next st.m_sentinel) = none) := by
  refine ⟨⟨⟨rfl, rfl⟩, rfl, by decide, by decide, by decide, _, rfl, ⟨rfl, rfl⟩, by decide⟩,
    ⟨⟨rfl, rfl, rfl⟩, rfl, rfl, by decide, _, rfl, rfl, rfl⟩,
    ⟨⟨rfl, rfl, rfl⟩, rfl, _, _, rfl, rfl, rfl, ?_⟩⟩
  intro fuel
  refine freeList_self_link _ 1 ?_ fuel
  rfl

end mp
